import Mathlib

/-!
Verification development for the LoafLogic bread-price pipeline.

The Python source (src/data_analyser.py, src/scrapers/*.py, src/data_manager.py)
is shallowly embedded below: pandas dataframes become lists of structures,
Python floats become exact rationals (`ℚ`), `try/except` blocks that swallow
parse errors become `Option`-valued parsers whose `none` case yields the
sentinel `0.0`, and the `thefuzz` scorer is embedded as an executable
token-sort-ratio over lists of characters.
-/

set_option maxHeartbeats 1000000

namespace LoafLogic

/-! ## Character and string utilities (Python string semantics, ASCII fragment) -/

/-- ASCII whitespace as matched by Python's `\s` and `str.strip`. -/
def isPySpace (c : Char) : Bool :=
  c = ' ' || c = '\t' || c = '\n' || c = '\r' || c = '\x0b' || c = '\x0c'

/-- Python `str.strip()` on a character list. -/
def trimChars (cs : List Char) : List Char :=
  ((cs.dropWhile isPySpace).reverse.dropWhile isPySpace).reverse

/-- Does `pat` occur as a contiguous substring (Python `pat in text`)? -/
def containsSub (pat : List Char) : List Char → Bool
  | [] => pat.isEmpty
  | c :: cs => pat.isPrefixOf (c :: cs) || containsSub pat cs

/-- Accumulator-based scanner behind `findRuns`; `cur` is the current run,
reversed. -/
def findRunsAux (p : Char → Bool) : List Char → List Char → List (List Char)
  | cur, [] => if cur.isEmpty then [] else [cur.reverse]
  | cur, c :: cs =>
    if p c then findRunsAux p (c :: cur) cs
    else if cur.isEmpty then findRunsAux p [] cs
    else cur.reverse :: findRunsAux p [] cs

/-- Maximal runs of characters satisfying `p`, left to right
(the semantics of `re.findall` with a character-class-plus pattern). -/
def findRuns (p : Char → Bool) (cs : List Char) : List (List Char) :=
  findRunsAux p [] cs

/-- Value of a digit string as a natural number. -/
def digitsToNat (cs : List Char) : ℕ :=
  cs.foldl (fun a c => 10 * a + (c.toNat - '0'.toNat)) 0

/-- Python `float(s)` on a string made of digits and dots: `"59"`, `"59."`,
`".5"`, `"1250.50"` parse; `""`, `"."`, `"1.2.3"` raise (here: `none`). -/
def parsePyFloat (cs : List Char) : Option ℚ :=
  let ip := cs.takeWhile Char.isDigit
  let rest := cs.dropWhile Char.isDigit
  match rest with
  | [] => if ip.isEmpty then none else some (digitsToNat ip : ℚ)
  | '.' :: fp =>
    if fp.all Char.isDigit && !(ip.isEmpty && fp.isEmpty) then
      some ((digitsToNat ip : ℚ) + (digitsToNat fp : ℚ) / (10 : ℚ) ^ fp.length)
    else none
  | _ => none

/-- Python `round` to the nearest integer, ties to even (banker's rounding). -/
def roundHalfEven (q : ℚ) : ℤ :=
  let f := ⌊q⌋
  let r := q - (f : ℚ)
  if r < 1 / 2 then f
  else if 1 / 2 < r then f + 1
  else if f % 2 = 0 then f else f + 1

/-- Python `round(x, 2)`. -/
def round2 (q : ℚ) : ℚ := (roundHalfEven (100 * q) : ℚ) / 100

/-! ## Scraper parsing (`_clean_price`, `_normalize_weight`)

The same two functions appear verbatim in `ZeptoScraper`, `BlinkitScraper`
and `BbnowScraper`; they are embedded once. -/

/-- Characters admitted by the capture group of `r'₹\s*([\d.,]+)'`. -/
def priceGroupChar (c : Char) : Bool := c.isDigit || c = '.' || c = ','

/-- The search `re.search(r'₹\s*([\d.,]+)', s)`: the first position where a rupee sign is
followed (after optional whitespace) by at least one digit/dot/comma yields the
maximal such run as the captured group. -/
def findRupee : List Char → Option (List Char)
  | [] => none
  | c :: cs =>
    if c = '₹' then
      let g := (cs.dropWhile isPySpace).takeWhile priceGroupChar
      if g.isEmpty then findRupee cs else some g
    else findRupee cs

/-- The `BaseScraper` subclasses' `_clean_price`: first `₹`-prefixed numeral,
commas stripped, parsed as float; no match, or a `float()` error swallowed by
the `except` clause, yields `0.0`. -/
def clean_price (s : String) : ℚ :=
  match findRupee s.toList with
  | none => 0
  | some g => (parsePyFloat (g.filter (· ≠ ','))).getD 0

/-- Characters of `re.findall(r'[\d.]+', text)` tokens. -/
def numTokenChar (c : Char) : Bool := c.isDigit || c = '.'

/-- Python `text = weight_text.lower().replace(',', '').strip()`. -/
def weightText (s : String) : List Char :=
  trimChars ((s.toList.map Char.toLower).filter (· ≠ ','))

/-- Python `nums = re.findall(r'[\d.]+', text)`. -/
def weightNums (s : String) : List (List Char) :=
  findRuns numTokenChar (weightText s)

/-- The unit-detection chain; `'g' in text` is tested first, so every text
containing `"kg"` also takes the `'g'` branch. -/
def weightUnit (s : String) : String :=
  if (weightText s).contains 'g' then "g"
  else if containsSub ['k', 'g'] (weightText s) then "kg"
  else if containsSub ['m', 'l'] (weightText s) then "ml"
  else ""

/-- The unit conversion applied to the parsed total (`ml` multiplies by 1). -/
def weightScale (s : String) (t : ℚ) : ℚ :=
  if weightUnit s = "kg" then t * 1000 else t

/-- The scrapers' `_normalize_weight`: lowercase, strip commas and outer
whitespace; collect numeric tokens; detect the unit by substring presence with
`'g'` tested first; multiply the first two tokens when the text contains an
`'x'` and has two tokens, otherwise take the last token; scale by 1000 for the
(unreachable) `kg` unit; round to 2 decimals. A `float()` error swallowed by
the `except` clause yields `0.0`. -/
def normalize_weight (s : String) : ℚ :=
  let nums := weightNums s
  if nums.isEmpty then 0
  else
    let totalOpt : Option ℚ :=
      if (weightText s).contains 'x' && decide (2 ≤ nums.length) then
        (parsePyFloat (nums.getD 0 [])).bind fun a =>
          (parsePyFloat (nums.getD 1 [])).map fun b => a * b
      else parsePyFloat (nums.getLastD [])
    match totalOpt with
    | none => 0
    | some t => round2 (weightScale s t)


/-! ## Data model

One row of the combined CSV produced by `DataManager.convert_to_dataframe`
(the Normalizer's actual input): `name`, `brand`, `price`, `weight` may be
missing (pandas `NaN`), `price_per_100g` was precomputed upstream as
`round((price / weight) * 100, 2)`. -/

structure RawRow where
  name : Option String
  brand : Option String
  weight : Option ℚ
  price : Option ℚ
  price_per_100g : ℚ
  platform : String
deriving DecidableEq

/-- A row surviving `DataAnalyser.load_and_preprocess`, with the two derived
columns `brand_standardized` and `product_key` added.  (The raw `brand`
column stays in the dataframe but is never read downstream, so it is not
carried here.) -/
structure CleanRow where
  name : String
  weight : ℚ
  price : ℚ
  price_per_100g : ℚ
  platform : String
  brand_standardized : String
  product_key : String
deriving DecidableEq

/-! ## Normalizer (`load_and_preprocess`, `_standardize_brand`,
`_create_product_key`) -/

/-- Remove every (non-overlapping, leftmost-first) occurrence of `pat` —
Python `str.replace(pat, '')` with `pat` nonempty.  Structured with explicit
fuel so that it reduces in the kernel; `fuel = cs.length` suffices because
every step consumes at least one character. -/
def removeAllSubAux (pat : List Char) : ℕ → List Char → List Char
  | 0, _ => []
  | _ + 1, [] => []
  | fuel + 1, c :: cs =>
    if pat.isPrefixOf (c :: cs) then
      removeAllSubAux pat fuel ((c :: cs).drop pat.length)
    else c :: removeAllSubAux pat fuel cs

def removeAllSub (pat cs : List Char) : List Char :=
  removeAllSubAux pat cs.length cs

/-- Python's ASCII `\w` class. -/
def isWordChar (c : Char) : Bool := c.isAlphanum || c = '_'

/-- Python `str.title()` (ASCII): first letter of each alphabetic run
uppercased, the rest lowercased. -/
def titleAux : Bool → List Char → List Char
  | _, [] => []
  | prevAlpha, c :: cs =>
    if c.isAlpha then
      (if prevAlpha then c.toLower else c.toUpper) :: titleAux true cs
    else c :: titleAux false cs

def titleAscii (cs : List Char) : List Char := titleAux false cs

/-- The fixed alias table of `DataAnalyser._standardize_brand`.  (The
`'WIBs'` key is unreachable: lookups happen after uppercasing.) -/
def brand_mappings : List (String × String) :=
  [("BRITANNIA", "Britannia"), ("MODERN", "Modern"),
   ("HARVEST GOLD", "Harvest Gold"), ("ENGLISH OVEN", "English Oven"),
   ("THE HEALTH FACTORY", "The Health Factory"), ("BRITTANIA", "Britannia"),
   ("WIBs", "Wibs"), ("BONN", "Bonn"), ("FRESH", "Fresh"), ("DAILY", "Daily")]

/-- The method `DataAnalyser._standardize_brand`: `NaN`/"Unknown" stay "Unknown";
otherwise uppercase-strip, look up in the alias table, default to title case. -/
def standardize_brand : Option String → String
  | none => "Unknown"
  | some b =>
    if b = "Unknown" then "Unknown"
    else
      let u := String.mk (trimChars (b.toList.map Char.toUpper))
      match brand_mappings.lookup u with
      | some v => v
      | none => String.mk (titleAscii u.toList)

/-- The stop phrases of `re.sub(r'\b(whole wheat|atta|sliced|fresh|premium)\b',
'', name)`, in alternation order. -/
def stopPhrases : List (List Char) :=
  [String.toList "whole wheat", String.toList "atta", String.toList "sliced",
   String.toList "fresh", String.toList "premium"]

/-- A `\b` boundary after a match: next character absent or not a word character. -/
def boundaryAfter : List Char → Bool
  | [] => true
  | c :: _ => !isWordChar c

/-- Length of the first stop phrase matching at the head of `cs` with a word
boundary after it (all phrases start and end with word characters, so the
boundary before reduces to the previous character not being a word char). -/
def matchPhraseLen (cs : List Char) : Option ℕ :=
  (stopPhrases.find? fun p =>
    p.isPrefixOf cs && boundaryAfter (cs.drop p.length)).map List.length

/-- The scan of `re.sub(r'\b(...)\b', '', name)`: walk the original string
left to right tracking the previous original character (for the leading `\b`),
deleting matches.  Fuel-structured for kernel reduction. -/
def removeStopWordsAux : ℕ → Option Char → List Char → List Char
  | 0, _, _ => []
  | _ + 1, _, [] => []
  | fuel + 1, prev, c :: cs =>
    let bOK : Bool := match prev with | none => true | some pc => !isWordChar pc
    match (if bOK then matchPhraseLen (c :: cs) else none) with
    | some n => removeStopWordsAux fuel ((c :: cs).getD (n - 1) c) ((c :: cs).drop n)
    | none => c :: removeStopWordsAux fuel (some c) cs

def removeStopWords (cs : List Char) : List Char :=
  removeStopWordsAux cs.length none cs

/-- Python `' '.join(s.split())`: collapse whitespace runs to single spaces and trim. -/
def collapseSpaces (cs : List Char) : List Char :=
  List.intercalate [' '] (findRuns (fun c => !isPySpace c) cs)

/-- The method `DataAnalyser._create_product_key`: lowercase name and standardized brand,
drop stop phrases, drop punctuation (anything outside `\w` and `\s`), collapse
whitespace, and glue as `brand ++ "_" ++ name`. -/
def create_product_key (brand_standardized nm : String) : String :=
  let nameL := nm.toList.map Char.toLower
  let b := brand_standardized.toList.map Char.toLower
  let n1 := removeStopWords nameL
  let n2 := n1.filter fun c => isWordChar c || isPySpace c
  let n3 := collapseSpaces n2
  String.mk (b ++ '_' :: n3)

/-- The marketing suffix stripped from names by `load_and_preprocess`. -/
def cleanLabelSuffix : List Char := String.toList " | Clean Label - Not Brown"

/-- Name cleaning applied before the validity filter: remove all occurrences
of the marketing suffix, then strip. -/
def cleanName (nm : String) : String :=
  String.mk (trimChars (removeAllSub cleanLabelSuffix nm.toList))

/-- The method `DataAnalyser.load_and_preprocess` minus the CSV I/O: clean names, drop
rows with missing name or price, keep `price > 0` and `weight ≥ 100`, then add
`brand_standardized` and `product_key`.  (Rows with missing weight fail the
`weight >= 100` comparison, as `NaN` does in pandas.) -/
def load_and_preprocess (rows : List RawRow) : List CleanRow :=
  rows.filterMap fun r =>
    match r.name, r.price, r.weight with
    | some nm, some p, some w =>
      if 0 < p ∧ 100 ≤ w then
        let nm2 := cleanName nm
        let bs := standardize_brand r.brand
        some { name := nm2, weight := w, price := p,
               price_per_100g := r.price_per_100g, platform := r.platform,
               brand_standardized := bs,
               product_key := create_product_key bs nm2 }
      else none
    | _, _, _ => none


/-! ## The fuzzy scorer (`thefuzz.fuzz.token_sort_ratio`)

`fuzzy_match_products` calls `thefuzz`, which delegates to `rapidfuzz`:
preprocess both strings (drop non-ASCII, lowercase, replace non-alphanumeric
characters by spaces, strip), split into tokens, sort them, join with single
spaces, then score the joined strings by normalized Indel similarity
(`100 * 2 * lcs / (len1 + len2)`), rounded to the nearest integer. -/

/-- The preprocessing `thefuzz.utils.full_process` with `force_ascii=True` followed by
`rapidfuzz.utils.default_process`. -/
def fullProcess (s : String) : List Char :=
  let ascii := s.toList.filter fun c => c.toNat < 128
  trimChars (ascii.map fun c =>
    let lc := c.toLower
    if lc.isAlphanum then lc else ' ')

/-- Whitespace-separated tokens (Python `str.split()`). -/
def tokensOf (cs : List Char) : List (List Char) :=
  findRuns (fun c => !isPySpace c) cs

/-- Lexicographic (code-point) comparison on character lists — Python string
`<=`. -/
def lexLe : List Char → List Char → Bool
  | [], _ => true
  | _ :: _, [] => false
  | x :: xs, y :: ys => if x = y then lexLe xs ys else decide (x < y)

def insertTokenSorted (x : List Char) : List (List Char) → List (List Char)
  | [] => [x]
  | y :: ys => if lexLe y x then y :: insertTokenSorted x ys else x :: y :: ys

/-- Python `sorted` on the token list (insertion sort; order on equal keys is
irrelevant because equal keys are identical strings). -/
def sortTokens (l : List (List Char)) : List (List Char) :=
  l.foldl (fun acc x => insertTokenSorted x acc) []

/-- Inner loop of `lcs`: given `f = lcs xs`, computes `lcs (x :: xs)` of the
second argument. -/
def lcsWith (f : List Char → ℕ) (x : Char) : List Char → ℕ
  | [] => 0
  | y :: ys => if x = y then f ys + 1 else max (lcsWith f x ys) (f (y :: ys))

/-- Length of a longest common subsequence (structural recursion so that it
reduces in the kernel; linear on equal strings). -/
def lcs : List Char → List Char → ℕ
  | [], _ => 0
  | x :: xs, ys => lcsWith (lcs xs) x ys

/-- The score `rapidfuzz.fuzz.ratio` on preprocessed strings, wrapped in thefuzz's
`int(round(...))`: the normalized Indel similarity
`100 * (1 - dist / (l1 + l2)) = 100 * 2 * lcs / (l1 + l2)`. -/
def indelScore (a b : List Char) : ℕ :=
  let l := a.length + b.length
  if l = 0 then 100
  else (roundHalfEven ((200 * lcs a b : ℚ) / l)).toNat

/-- The scorer `thefuzz.fuzz.token_sort_ratio`. -/
def tokenSortScore (a b : String) : ℕ :=
  let pa := List.intercalate [' '] (sortTokens (tokensOf (fullProcess a)))
  let pb := List.intercalate [' '] (sortTokens (tokensOf (fullProcess b)))
  indelScore pa pb


/-! ## Cross-Platform Matcher (`fuzzy_match_products`) -/

/-- A `CleanRow` with the `product_group` column added by the Matcher;
`none` models pandas `NaN` (a key absent from `group_mapping`). -/
structure MatchedRow extends CleanRow where
  product_group : Option ℕ
deriving DecidableEq

/-- Pandas `Series.unique`: distinct values in first-occurrence order
(structural via a `seen` accumulator). -/
def dedupFirstAux {α} [DecidableEq α] (seen : List α) : List α → List α
  | [] => []
  | x :: xs =>
    if x ∈ seen then dedupFirstAux seen xs
    else x :: dedupFirstAux (x :: seen) xs

def dedupFirst {α} [DecidableEq α] (l : List α) : List α := dedupFirstAux [] l

/-- Stable insertion keeping scores descending: an element inserted later goes
after earlier elements of equal score, matching the input-order tie-breaking
of `rapidfuzz.process.extract`. -/
def insertScoredDesc (x : String × ℕ) : List (String × ℕ) → List (String × ℕ)
  | [] => [x]
  | y :: ys => if x.2 ≤ y.2 then y :: insertScoredDesc x ys else x :: y :: ys

def sortScoredDesc (l : List (String × ℕ)) : List (String × ℕ) :=
  l.foldl (fun acc x => insertScoredDesc x acc) []

/-- The call `thefuzz.process.extract(q, choices, scorer=..., limit=limit)`: every
choice scored against `q`, sorted by score descending (ties in choice order),
truncated to `limit`. -/
def extract (score : String → String → ℕ) (q : String) (choices : List String)
    (limit : ℕ) : List (String × ℕ) :=
  (sortScoredDesc (choices.map fun c => (c, score q c))).take limit

/-- Python `min` on a nonempty list of strings (lexicographically smallest
key); the `[]` case is unreachable (Python would raise). -/
def minString : List String → String
  | [] => ""
  | x :: xs => xs.foldl min x

/-- The write `product_groups[group_key].extend(high_matches)` with dict insertion
order: extend an existing entry in place or append a new one. -/
def insertGroup (g : String) (members : List String) :
    List (String × List String) → List (String × List String)
  | [] => [(g, members)]
  | (k, ms) :: rest =>
    if k = g then (k, ms ++ members) :: rest
    else (k, ms) :: insertGroup g members rest

/-- The list `high_matches`: the keys among the query's top-10 fuzzy matches whose
score reaches the threshold. -/
def highMatches (score : String → String → ℕ) (threshold : ℕ)
    (keys : List String) (k : String) : List String :=
  ((extract score k keys 10).filter fun m => threshold ≤ m.2).map Prod.fst

/-- One iteration of the `product_groups` accumulation loop (`if
high_matches:` is Python list truthiness, so the empty list leaves the
accumulator unchanged). -/
def fuzzyStep (score : String → String → ℕ) (threshold : ℕ)
    (keys : List String) (groups : List (String × List String))
    (k : String) : List (String × List String) :=
  if (highMatches score threshold keys k).isEmpty then groups
  else insertGroup (minString (highMatches score threshold keys k))
    (highMatches score threshold keys k) groups

/-- The `product_groups` accumulation loop of `fuzzy_match_products`: for each
distinct key, its top-10 fuzzy matches scoring at or above the threshold are
filed under the lexicographically smallest matching key. -/
def fuzzyGroups (score : String → String → ℕ) (threshold : ℕ)
    (keys : List String) : List (String × List String) :=
  keys.foldl (fuzzyStep score threshold keys) []

/-- One dict write `group_mapping[key] = group_id` per member, later writes
overwriting earlier ones. -/
def updateKeys (m : String → Option ℕ) (ks : List String) (i : ℕ) :
    String → Option ℕ :=
  ks.foldl (fun acc k => fun s => if s = k then some i else acc s) m

/-- The `group_mapping` loop: `enumerate(product_groups.values())` in dict
insertion order, every key of a member list mapped to that list's index. -/
def buildMapping (groups : List (String × List String)) : String → Option ℕ :=
  groups.enum.foldl (fun acc p => updateKeys acc p.2.2 p.1) (fun _ => none)

/-- The method `DataAnalyser.fuzzy_match_products` (default `threshold=80`): group the
distinct product keys fuzzily, then map each row's key to its group id;
keys absent from the mapping become `NaN` (`none`). -/
def fuzzy_match_products (threshold : ℕ) (df : List CleanRow) : List MatchedRow :=
  let uniqueProducts := dedupFirst (df.map (·.product_key))
  let mapping := buildMapping (fuzzyGroups tokenSortScore threshold uniqueProducts)
  df.map fun r => { toCleanRow := r, product_group := mapping r.product_key }

/-! ## Deal Identifier (`identify_best_deals`) -/

/-- One record of the `deals_df` dataframe. -/
structure DealRow where
  product_group : ℕ
  name : String
  brand : String
  weight : ℚ
  price : ℚ
  price_per_100g : ℚ
  platform : String
  is_best_deal : Bool
  price_difference : ℚ
  price_difference_percent : ℚ
  savings_opportunity : ℚ
deriving DecidableEq

/-- Pandas `min` over a nonempty series (`[]` unreachable at call sites). -/
def listMin : List ℚ → ℚ
  | [] => 0
  | x :: xs => xs.foldl min x

/-- The selection `df[df['product_group'] == g]`.  For `g = NaN` (`none`) the selection is
empty, because `NaN == NaN` is false in pandas. -/
def groupMembers (df : List MatchedRow) : Option ℕ → List MatchedRow
  | none => []
  | some i => df.filter fun r => decide (r.product_group = some i)

/-- Python `platforms_in_group = group_products['platform'].nunique()`. -/
def platCountOf (df : List MatchedRow) (i : ℕ) : ℕ :=
  (dedupFirst ((groupMembers df (some i)).map (·.platform))).length

/-- Python `available_products = group_products[group_products['price_per_100g'] > 0]`. -/
def availOf (df : List MatchedRow) (i : ℕ) : List MatchedRow :=
  (groupMembers df (some i)).filter fun r => decide (0 < r.price_per_100g)

/-- Python `min_price = available_products['price_per_100g'].min()`. -/
def minPriceOf (df : List MatchedRow) (i : ℕ) : ℚ :=
  listMin ((availOf df i).map (·.price_per_100g))

/-- The dict appended to `best_deals` for one product of a qualifying group. -/
def mkDealRecord (i : ℕ) (min_price : ℚ) (p : MatchedRow) : DealRow :=
  { product_group := i, name := p.name, brand := p.brand_standardized,
    weight := p.weight, price := p.price, price_per_100g := p.price_per_100g,
    platform := p.platform,
    is_best_deal := decide (p.price_per_100g = min_price),
    price_difference := p.price_per_100g - min_price,
    price_difference_percent :=
      if 0 < min_price then (p.price_per_100g - min_price) / min_price * 100
      else 0,
    savings_opportunity :=
      if p.price_per_100g = min_price then 0
      else p.price_per_100g - min_price }

/-- The method `DataAnalyser.identify_best_deals`: per distinct group, skip groups with
fewer than 2 distinct platforms, skip groups with fewer than 2 records with
positive `price_per_100g`; otherwise emit one `DealRow` per member with
nonzero `price_per_100g`, flagged against the group minimum. -/
def identify_best_deals (df : List MatchedRow) : List DealRow :=
  (dedupFirst (df.map (·.product_group))).flatMap fun g =>
    match g with
    | none => []
    | some i =>
      if platCountOf df i < 2 then []
      else if (availOf df i).length < 2 then []
      else
        (groupMembers df (some i)).filterMap fun p =>
          if p.price_per_100g = 0 then none
          else some (mkDealRecord i (minPriceOf df i) p)

/-! ## Comparison Table Builder (`create_comparison_table`) -/

/-- The per-platform `{platform}_price` / `{platform}_per_100g` /
`{platform}_is_best` column triple of a comparison row. -/
structure Slot where
  price : Option ℚ
  per100 : Option ℚ
  isBest : Bool
deriving DecidableEq

def Slot.empty : Slot := { price := none, per100 := none, isBest := false }

/-- One comparison-table row with the three fixed platform slots. -/
structure CompRow where
  product_name : String
  brand : String
  is_comparable : Bool
  platforms_available : ℕ
  blinkit : Slot
  zepto : Slot
  bbnow : Slot
deriving DecidableEq

/-- Pandas `series.mode()[0]` guarded by the `.empty` fallback: pandas `mode` sorts
its result, so the value returned is the lexicographically smallest among the
values of maximal multiplicity (`""` only for an empty series, unreachable). -/
def modeStep (xs : List String) (best y : String) : String :=
  if xs.count y > xs.count best ∨ (xs.count y = xs.count best ∧ y < best)
  then y else best

def modeSmallest (xs : List String) : String :=
  match dedupFirst xs with
  | [] => ""
  | c :: cs => cs.foldl (modeStep xs) c

/-- One step of the best-deal scan (`none` plays `float('inf')`). -/
def bpStep (acc : Option (ℚ × String)) (p : DealRow) : Option (ℚ × String) :=
  match acc with
  | none => some (p.price_per_100g, p.platform)
  | some (b, _) =>
    if p.price_per_100g < b then some (p.price_per_100g, p.platform) else acc

/-- The best-deal scan: running minimum under strict `<` starting from
`float('inf')`, so the first record achieving the minimum fixes the platform. -/
def bestPlatform (gp : List DealRow) : Option (ℚ × String) :=
  gp.foldl bpStep none

/-- One iteration of the populate loop on the slot of the product's platform:
keep the cheaper `per_100g` (strict `<`), fill an empty slot, and then mark
`is_best` when the group is comparable and this platform is the best one. -/
def stepSlot (s : Slot) (p : DealRow) (mark : Bool) : Slot :=
  let s1 :=
    match s.per100 with
    | some v =>
      if p.price_per_100g < v then
        { s with price := some p.price, per100 := some p.price_per_100g }
      else s
    | none => { s with price := some p.price, per100 := some p.price_per_100g }
  if mark then { s1 with isBest := true } else s1

/-- Dispatch the populate step to the row's fixed platform slot.  (For a
platform outside the fixed three the Python code would create a fresh
dataframe column outside the schema; the embedding leaves the row unchanged,
and the theorems about slots assume the pipeline's three platform names.) -/
def applyProduct (isComp : Bool) (bp : Option String) (row : CompRow)
    (p : DealRow) : CompRow :=
  let mark := isComp && bp == some p.platform
  if p.platform = "blinkit" then { row with blinkit := stepSlot row.blinkit p mark }
  else if p.platform = "zepto" then { row with zepto := stepSlot row.zepto p mark }
  else if p.platform = "bbnow" then { row with bbnow := stepSlot row.bbnow p mark }
  else row

/-- Python `group_products = deals_df[deals_df['product_group'] == group_id]`. -/
def groupDeals (deals : List DealRow) (g : ℕ) : List DealRow :=
  deals.filter fun r => decide (r.product_group = g)

/-- Python `is_comparable = platforms_present >= 2` for one table group. -/
def isComparableOf (deals : List DealRow) (g : ℕ) : Bool :=
  decide (2 ≤ (dedupFirst ((groupDeals deals g).map (·.platform))).length)

/-- The value `best_deal_platform`: `None` unless the group is comparable, else the
platform chosen by the strict-`<` scan. -/
def bestPlatOf (deals : List DealRow) (g : ℕ) : Option String :=
  if isComparableOf deals g then (bestPlatform (groupDeals deals g)).map Prod.snd
  else none

/-- The loop body of `create_comparison_table` for one product group `g`. -/
def comparisonRow (deals : List DealRow) (g : ℕ) : CompRow :=
  (groupDeals deals g).foldl
    (applyProduct (isComparableOf deals g) (bestPlatOf deals g))
    { product_name := modeSmallest ((groupDeals deals g).map (·.name)),
      brand := modeSmallest ((groupDeals deals g).map (·.brand)),
      is_comparable := isComparableOf deals g,
      platforms_available :=
        (dedupFirst ((groupDeals deals g).map (·.platform))).length,
      blinkit := Slot.empty, zepto := Slot.empty, bbnow := Slot.empty }

/-- The method `DataAnalyser.create_comparison_table`: one row per distinct
`product_group` value of its input dataframe, with representative name/brand
by pandas `mode`, comparability re-derived from the platforms present in the
input, and per-platform slots populated by the scan above. -/
def create_comparison_table (deals : List DealRow) : List CompRow :=
  (dedupFirst (deals.map (·.product_group))).map (comparisonRow deals)

/-- The three `is_best` flags of a row, in fixed platform order. -/
def bestFlags (row : CompRow) : List Bool :=
  [row.blinkit.isBest, row.zepto.isBest, row.bbnow.isBest]

/-- The slot of a named platform (only meaningful on the fixed three). -/
def slotOf (row : CompRow) (s : String) : Slot :=
  if s = "blinkit" then row.blinkit
  else if s = "zepto" then row.zepto
  else if s = "bbnow" then row.bbnow
  else Slot.empty

/-! ## Definitions modelled from the spec's wording (for refinement contrast)

These two definitions deliberately follow the specification text, not the
source; they exist to be compared against the behaviour of the embedded code. -/

/-- Modelled from the spec: a genuine multiplicative "N x M" pattern — a
digit, optional spaces, the letter `x`, optional spaces, a digit — somewhere
in the text. -/
def nxmAt : List Char → Bool
  | [] => false
  | d :: rest =>
    d.isDigit &&
      match rest.dropWhile (· = ' ') with
      | 'x' :: r2 =>
        match r2.dropWhile (· = ' ') with
        | m :: _ => m.isDigit
        | [] => false
      | _ => false

def hasNxM : List Char → Bool
  | [] => false
  | c :: cs => nxmAt (c :: cs) || hasNxM cs

/-- Modelled from the spec: representative value = most frequent, ties broken
by the first value encountered in iteration order (what the claim asserts the
table builder does). -/
def modeFirstEncountered (xs : List String) : String :=
  match dedupFirst xs with
  | [] => ""
  | c :: cs =>
    cs.foldl (fun best y => if xs.count y > xs.count best then y else best) c

/-! ## Concrete inputs used by counterexamples and witnesses -/

/-- A matched record (three rows of `df_matched`): group 0 spans two
platforms, group 1 lives on a single platform. -/
def mkMatched (g : Option ℕ) (plat : String) (pp : ℚ) : MatchedRow :=
  { name := "bread", weight := 400, price := 40, price_per_100g := pp,
    platform := plat, brand_standardized := "Britannia",
    product_key := "britannia_bread", product_group := g }

def exPipeline : List MatchedRow :=
  [mkMatched (some 0) "blinkit" 10, mkMatched (some 0) "zepto" (25 / 2),
   mkMatched (some 1) "zepto" 20]

/-- Eleven distinct product keys that are pairwise permutations of the same
tokens (so every pairwise token-sort score is 100). -/
def permKeys : List String :=
  ["k_a b c d", "k_a b d c", "k_a c b d", "k_a c d b", "k_a d b c",
   "k_a d c b", "k_b a c d", "k_b a d c", "k_b c a d", "k_b c d a",
   "k_b d a c"]

def mkKeyRow (key : String) : CleanRow :=
  { name := "bread", weight := 400, price := 40, price_per_100g := 10,
    platform := "zepto", brand_standardized := "B", product_key := key }

def permRows : List CleanRow := permKeys.map mkKeyRow

/-- Two clean rows with keys that are permutations of each other. -/
def exTwoRows : List CleanRow := [mkKeyRow "k_a b", mkKeyRow "k_b a"]

/-- Deal rows for the mode-tie-break counterexample: one group, names `"b"`
then `"a"`, each once. -/
def mkDeal (g : ℕ) (nm : String) (plat : String) (pp : ℚ) : DealRow :=
  { product_group := g, name := nm, brand := "Britannia", weight := 400,
    price := 40, price_per_100g := pp, platform := plat, is_best_deal := false,
    price_difference := 0, price_difference_percent := 0,
    savings_opportunity := 0 }

def exModeTie : List DealRow :=
  [mkDeal 0 "b" "zepto" 10, mkDeal 0 "a" "blinkit" 12]

/-- Deal rows with a two-way tie at the minimal `price_per_100g`. -/
def exPriceTie : List DealRow :=
  [mkDeal 0 "b" "zepto" 10, mkDeal 0 "a" "blinkit" 10]

/-- A raw CSV row that survives every filter. -/
def exRawGood : RawRow :=
  { name := some "Britannia Bread | Clean Label - Not Brown",
    brand := some "BRITANNIA", weight := some 400, price := some 40,
    price_per_100g := 10, platform := "zepto" }

def exRawRows : List RawRow := [exRawGood]

/-- The normalized row that `load_and_preprocess` produces from `exRawGood`. -/
def exCleanOut : CleanRow :=
  { name := "Britannia Bread", weight := 400, price := 40,
    price_per_100g := 10, platform := "zepto",
    brand_standardized := "Britannia",
    product_key := "britannia_britannia bread" }

/-- The characterization the (amended) spec gives of the representative
value: a most frequent value, lexicographically smallest among ties. -/
def isSmallestMode (xs : List String) (v : String) : Prop :=
  v ∈ xs ∧ (∀ y ∈ xs, xs.count y ≤ xs.count v) ∧
    ∀ y ∈ xs, xs.count y = xs.count v → v ≤ y

/-- The invariant claimed by C3(a): every accumulated group is filed under a
key that belongs to the group and lexicographically bounds it below. -/
def GroupInv (e : String × List String) : Prop :=
  e.1 ∈ e.2 ∧ ∀ k ∈ e.2, e.1 ≤ k

/-- The statement that `x` lies in some accumulated member list. -/
def inSomeGroup (groups : List (String × List String)) (x : String) : Prop :=
  ∃ e ∈ groups, x ∈ e.2

/-! # Theorems -/

/-! ## Generic helper lemmas -/

theorem findRupee_eq_none : ∀ {cs : List Char}, '₹' ∉ cs → findRupee cs = none
  | [], _ => rfl
  | c :: cs, h => by
    have h1 : ¬c = '₹' := fun hc => h (hc ▸ List.mem_cons_self c cs)
    have h2 : '₹' ∉ cs := fun hm => h (List.mem_cons_of_mem c hm)
    simp [findRupee, h1, findRupee_eq_none h2]

/-! ## C7: price parsing -/

/-- C7: `_clean_price` returns the first `₹`-prefixed numeral with thousands
separators stripped (`"₹59" ↦ 59`, `"₹1,250.50 (was ₹1400)" ↦ 1250.50`, the
first match winning), and `0.0` whenever no such pattern occurs; the
embedding is a total function (parse failures yield `0.0`, mirroring the
caught exception), so nothing is raised to the caller. -/
theorem clean_price_first_match :
    clean_price "₹59" = 59 ∧
    clean_price "₹1,250.50 (was ₹1400)" = 2501 / 2 ∧
    clean_price "no price" = 0 ∧
    ∀ s : String, '₹' ∉ s.toList → clean_price s = 0 := by
  refine ⟨by with_unfolding_all rfl, by with_unfolding_all rfl,
    by with_unfolding_all rfl, fun s hs => ?_⟩
  have hn := findRupee_eq_none hs
  simp only [String.toList] at hn
  simp [clean_price, String.toList, hn]

/-- Witness for C7 at the concrete input `"price unknown"`. -/
theorem clean_price_first_match_witness : clean_price "price unknown" = 0 :=
  clean_price_first_match.2.2.2 "price unknown" (by decide)

/-! ## C2: kg detection -/

/-- C2 (failing): because `'g' in text` is tested before `'kg' in text` and
`"kg"` contains `"g"`, the unit for `"1 kg"` is detected as `"g"` and no
kg→g conversion happens: `_normalize_weight("1 kg")` is `1.0`, not the
`1000.0` promised by the spec and by `BbnowScraper._normalize_weight`'s own
docstring (`"1 kg" -> 1000`). -/
theorem normalize_weight_kg_shadowed :
    normalize_weight "1 kg" = 1 ∧ weightUnit "1 kg" = "g" ∧ (1 : ℚ) ≠ 1000 :=
  ⟨by with_unfolding_all rfl, by with_unfolding_all rfl, by norm_num⟩

/-! ## C8: weight parsing -/

/-- C8 counterexample: `"max bread 350 g 2 slices"` contains no genuine
"N x M" pattern (`hasNxM` is the spec's reading), yet the code multiplies the
first two numeric tokens (350 × 2 = 700) because the letter `x` occurs in
`"max"`; the claimed "otherwise take the last numeric token" behaviour would
give 2. -/
theorem normalize_weight_x_counterexample :
    hasNxM (weightText "max bread 350 g 2 slices") = false ∧
    normalize_weight "max bread 350 g 2 slices" = 700 ∧
    parsePyFloat ((weightNums "max bread 350 g 2 slices").getLastD []) =
      some 2 ∧
    (700 : ℚ) ≠ 2 :=
  ⟨by with_unfolding_all rfl, by with_unfolding_all rfl,
   by with_unfolding_all rfl, by norm_num⟩

/-- C8 amended: `_normalize_weight` multiplies the first two numeric tokens
whenever the (lowercased, comma-stripped) text contains the **character**
`'x'` and at least two numeric tokens — not only for genuine "N x M"
patterns; otherwise it takes the last numeric token; and it returns `0.0`
when no numeric token exists.  The claim's three concrete examples hold. -/
theorem normalize_weight_spec :
    normalize_weight "2 x 200 g" = 400 ∧
    normalize_weight "1 pack (350 g)" = 350 ∧
    normalize_weight "garbage" = 0 ∧
    (∀ s : String, weightNums s = [] → normalize_weight s = 0) ∧
    (∀ s : String, (weightText s).contains 'x' = true →
      2 ≤ (weightNums s).length →
      ∀ a b, parsePyFloat ((weightNums s).getD 0 []) = some a →
        parsePyFloat ((weightNums s).getD 1 []) = some b →
        normalize_weight s = round2 (weightScale s (a * b))) ∧
    (∀ s : String,
      ((weightText s).contains 'x' = false ∨ (weightNums s).length < 2) →
      weightNums s ≠ [] →
      ∀ v, parsePyFloat ((weightNums s).getLastD []) = some v →
      normalize_weight s = round2 (weightScale s v)) := by
  refine ⟨by with_unfolding_all rfl, by with_unfolding_all rfl,
    by with_unfolding_all rfl, ?_, ?_, ?_⟩
  · intro s h
    simp [normalize_weight, h]
  · intro s hx hlen a b ha hb
    obtain ⟨n0, n1, ns, hnn⟩ : ∃ n0 n1 ns, weightNums s = n0 :: n1 :: ns := by
      cases h : weightNums s with
      | nil => rw [h] at hlen; simp at hlen
      | cons x l =>
        cases l with
        | nil => rw [h] at hlen; simp at hlen
        | cons y m => exact ⟨x, y, m, rfl⟩
    rw [hnn] at ha hb
    have hlen2 : 2 ≤ (n0 :: n1 :: ns).length := by simp
    have hc : ((weightText s).contains 'x' &&
        decide (2 ≤ (n0 :: n1 :: ns).length)) = true := by
      rw [hx, decide_eq_true hlen2]; rfl
    simp only [normalize_weight, hnn, List.isEmpty_cons, if_false,
      Bool.false_eq_true]
    rw [if_pos hc, ha, hb]
    rfl
  · intro s hor hne v hv
    obtain ⟨n0, ns, hnn⟩ : ∃ n0 ns, weightNums s = n0 :: ns := by
      cases h : weightNums s with
      | nil => exact absurd h hne
      | cons x l => exact ⟨x, l, rfl⟩
    rw [hnn] at hv
    have hcond : ¬((weightText s).contains 'x' &&
        decide (2 ≤ (n0 :: ns).length)) = true := by
      rcases hor with h | h
      · rw [h]; simp
      · rw [hnn] at h
        have h2 : decide (2 ≤ (n0 :: ns).length) = false :=
          decide_eq_false (by omega)
        rw [h2]; simp
    simp only [normalize_weight, hnn, List.isEmpty_cons, if_false,
      Bool.false_eq_true]
    rw [if_neg hcond, hv]

/-- Witness for C8 at the concrete input `"2 x 200 g"`. -/
theorem normalize_weight_spec_witness :
    normalize_weight "2 x 200 g" = round2 (weightScale "2 x 200 g" (2 * 200)) :=
  normalize_weight_spec.2.2.2.2.1 "2 x 200 g" (by decide) (by decide)
    2 200 (by with_unfolding_all rfl) (by with_unfolding_all rfl)

/-! ## Membership and minimum lemmas -/

theorem mem_dedupFirstAux {α} [DecidableEq α] (a : α) :
    ∀ (l seen : List α), a ∈ dedupFirstAux seen l ↔ a ∈ l ∧ a ∉ seen
  | [], seen => by simp [dedupFirstAux]
  | x :: xs, seen => by
    by_cases hx : x ∈ seen
    · rw [dedupFirstAux, if_pos hx, mem_dedupFirstAux a xs seen]
      constructor
      · rintro ⟨h1, h2⟩
        exact ⟨List.mem_cons_of_mem x h1, h2⟩
      · rintro ⟨h1, h2⟩
        rcases List.mem_cons.mp h1 with h | h
        · exact absurd (h ▸ hx) h2
        · exact ⟨h, h2⟩
    · rw [dedupFirstAux, if_neg hx]
      constructor
      · intro hmem
        rcases List.mem_cons.mp hmem with h | h
        · exact ⟨by rw [h]; exact List.mem_cons_self x xs, by rw [h]; exact hx⟩
        · obtain ⟨hxs, hnot⟩ := (mem_dedupFirstAux a xs (x :: seen)).mp h
          exact ⟨List.mem_cons_of_mem x hxs,
            fun hs => hnot (List.mem_cons_of_mem x hs)⟩
      · rintro ⟨h1, h2⟩
        rcases List.mem_cons.mp h1 with h | h
        · rw [h]; exact List.mem_cons_self x _
        · by_cases hax : a = x
          · rw [hax]; exact List.mem_cons_self x _
          · refine List.mem_cons_of_mem x
              ((mem_dedupFirstAux a xs (x :: seen)).mpr ⟨h, fun hs => ?_⟩)
            rcases List.mem_cons.mp hs with h' | h'
            exacts [hax h', h2 h']

theorem mem_dedupFirst {α} [DecidableEq α] {a : α} {l : List α} :
    a ∈ dedupFirst l ↔ a ∈ l := by
  rw [dedupFirst, mem_dedupFirstAux]
  simp

theorem foldl_min_mem {α} [LinearOrder α] :
    ∀ (xs : List α) (a : α), xs.foldl min a ∈ a :: xs
  | [], a => by simp
  | x :: xs, a => by
    have h := foldl_min_mem xs (min a x)
    simp only [List.foldl_cons]
    rcases List.mem_cons.mp h with h' | h'
    · rcases min_choice a x with hm | hm
      · exact List.mem_cons.mpr (Or.inl (h'.trans hm))
      · exact List.mem_cons.mpr
          (Or.inr (List.mem_cons.mpr (Or.inl (h'.trans hm))))
    · exact List.mem_cons.mpr (Or.inr (List.mem_cons.mpr (Or.inr h')))

theorem foldl_min_le {α} [LinearOrder α] :
    ∀ (xs : List α) (a y : α), y ∈ a :: xs → xs.foldl min a ≤ y
  | [], a, y, hy => by
    simp only [List.mem_singleton] at hy
    simp [hy]
  | x :: xs, a, y, hy => by
    simp only [List.foldl_cons]
    rcases List.mem_cons.mp hy with h | h
    · calc xs.foldl min (min a x) ≤ min a x :=
            foldl_min_le xs (min a x) (min a x) (List.mem_cons_self _ _)
        _ ≤ a := min_le_left a x
        _ = y := h.symm
    · rcases List.mem_cons.mp h with h' | h'
      · calc xs.foldl min (min a x) ≤ min a x :=
              foldl_min_le xs (min a x) (min a x) (List.mem_cons_self _ _)
          _ ≤ x := min_le_right a x
          _ = y := h'.symm
      · exact foldl_min_le xs (min a x) y (List.mem_cons_of_mem _ h')

theorem listMin_mem {l : List ℚ} (h : l ≠ []) : listMin l ∈ l := by
  cases l with
  | nil => exact absurd rfl h
  | cons x xs => exact foldl_min_mem xs x

theorem listMin_le {l : List ℚ} {y : ℚ} (h : y ∈ l) : listMin l ≤ y := by
  cases l with
  | nil => exact absurd h (List.not_mem_nil y)
  | cons x xs => exact foldl_min_le xs x y h

theorem minString_mem {l : List String} (h : l ≠ []) : minString l ∈ l := by
  cases l with
  | nil => exact absurd rfl h
  | cons x xs => exact foldl_min_mem xs x

theorem minString_le {l : List String} {y : String} (h : y ∈ l) :
    minString l ≤ y := by
  cases l with
  | nil => exact absurd h (List.not_mem_nil y)
  | cons x xs => exact foldl_min_le xs x y h

/-! ## Decomposition of `identify_best_deals` membership -/

theorem mem_identify_best_deals {df : List MatchedRow} {d : DealRow}
    (hd : d ∈ identify_best_deals df) :
    ∃ i, ∃ p ∈ groupMembers df (some i),
      2 ≤ platCountOf df i ∧ 2 ≤ (availOf df i).length ∧
      p.price_per_100g ≠ 0 ∧ d = mkDealRecord i (minPriceOf df i) p := by
  simp only [identify_best_deals, List.mem_flatMap] at hd
  obtain ⟨g, _, hdg⟩ := hd
  cases g with
  | none => exact absurd hdg (List.not_mem_nil d)
  | some i =>
    dsimp only at hdg
    by_cases h1 : platCountOf df i < 2
    · rw [if_pos h1] at hdg
      exact absurd hdg (List.not_mem_nil d)
    · rw [if_neg h1] at hdg
      by_cases h2 : (availOf df i).length < 2
      · rw [if_pos h2] at hdg
        exact absurd hdg (List.not_mem_nil d)
      · rw [if_neg h2] at hdg
        obtain ⟨p, hp, hpd⟩ := List.mem_filterMap.mp hdg
        by_cases hp0 : p.price_per_100g = 0
        · rw [if_pos hp0] at hpd
          exact absurd hpd (Option.noConfusion)
        · rw [if_neg hp0] at hpd
          exact ⟨i, p, hp, Nat.le_of_not_lt h1, Nat.le_of_not_lt h2, hp0,
            (Option.some.inj hpd).symm⟩

theorem mem_identify_best_deals_intro {df : List MatchedRow} {i : ℕ}
    {p : MatchedRow} (hp : p ∈ groupMembers df (some i))
    (h1 : 2 ≤ platCountOf df i) (h2 : 2 ≤ (availOf df i).length)
    (hne : p.price_per_100g ≠ 0) :
    mkDealRecord i (minPriceOf df i) p ∈ identify_best_deals df := by
  have hpg : p ∈ df ∧ p.product_group = some i := by
    have := List.mem_filter.mp hp
    exact ⟨this.1, of_decide_eq_true this.2⟩
  simp only [identify_best_deals, List.mem_flatMap]
  refine ⟨some i, ?_, ?_⟩
  · exact mem_dedupFirst.mpr
      (List.mem_map.mpr ⟨p, hpg.1, hpg.2⟩)
  · show mkDealRecord i (minPriceOf df i) p ∈
      (if platCountOf df i < 2 then []
       else if (availOf df i).length < 2 then []
       else (groupMembers df (some i)).filterMap fun p =>
         if p.price_per_100g = 0 then none
         else some (mkDealRecord i (minPriceOf df i) p))
    rw [if_neg (Nat.not_lt.mpr h1), if_neg (Nat.not_lt.mpr h2)]
    exact List.mem_filterMap.mpr ⟨p, hp, by rw [if_neg hne]⟩

/-! ## C5: deal-identifier exclusions -/

/-- C5: every emitted `DealRow` comes from a group with at least 2 distinct
platforms and at least 2 positively priced records, and from a member whose
`price_per_100g` is nonzero — so groups below either bound, and zero-priced
records inside qualifying groups, contribute nothing.  The embedding is a
total function, mirroring that the exclusions are silent `continue`s, not
exceptions. -/
theorem identify_best_deals_exclusions (df : List MatchedRow) :
    ∀ d ∈ identify_best_deals df,
      2 ≤ platCountOf df d.product_group ∧
      2 ≤ (availOf df d.product_group).length ∧
      d.price_per_100g ≠ 0 := by
  intro d hd
  obtain ⟨i, p, _, h1, h2, hp0, hdp⟩ := mem_identify_best_deals hd
  have hgi : d.product_group = i := by rw [hdp]; rfl
  have hpp : d.price_per_100g = p.price_per_100g := by rw [hdp]; rfl
  rw [hgi, hpp]
  exact ⟨h1, h2, hp0⟩

/-- Witness for C5 at the three-record pipeline input: the blinkit record of
group 0 is emitted, its group has 2 platforms and 2 positive prices. -/
theorem identify_best_deals_exclusions_witness :
    2 ≤ platCountOf exPipeline 0 ∧ 2 ≤ (availOf exPipeline 0).length ∧
    (mkDealRecord 0 (minPriceOf exPipeline 0)
        (mkMatched (some 0) "blinkit" 10)).price_per_100g ≠ 0 :=
  identify_best_deals_exclusions exPipeline
    (mkDealRecord 0 (minPriceOf exPipeline 0) (mkMatched (some 0) "blinkit" 10))
    (of_decide_eq_true (by with_unfolding_all rfl))

/-! ## C4: savings sign and best-deal existence -/

/-- C4: with nonnegative input `price_per_100g` (guaranteed upstream), every
emitted `DealRow` has `savings_opportunity ≥ 0`, zero exactly when
`is_best_deal`; and every group with ≥ 2 distinct platforms and ≥ 2
positively priced records emits at least one record with `is_best_deal` and
zero savings (equality with the group minimum marks all ties best). -/
theorem identify_best_deals_savings (df : List MatchedRow)
    (hpos : ∀ r ∈ df, 0 ≤ r.price_per_100g) :
    (∀ d ∈ identify_best_deals df,
      0 ≤ d.savings_opportunity ∧
      (d.savings_opportunity = 0 ↔ d.is_best_deal = true)) ∧
    (∀ i : ℕ, 2 ≤ platCountOf df i → 2 ≤ (availOf df i).length →
      ∃ d ∈ identify_best_deals df,
        d.product_group = i ∧ d.is_best_deal = true ∧
        d.savings_opportunity = 0) := by
  constructor
  · intro d hd
    obtain ⟨i, p, hp, h1, h2, hp0, hdp⟩ := mem_identify_best_deals hd
    have hpdf : p ∈ df := (List.mem_filter.mp hp).1
    have hppos : 0 < p.price_per_100g :=
      lt_of_le_of_ne (hpos p hpdf) (Ne.symm hp0)
    have hpavail : p ∈ availOf df i :=
      List.mem_filter.mpr ⟨hp, decide_eq_true hppos⟩
    have hmin : minPriceOf df i ≤ p.price_per_100g :=
      listMin_le (List.mem_map.mpr ⟨p, hpavail, rfl⟩)
    have hsav : d.savings_opportunity =
        (if p.price_per_100g = minPriceOf df i then 0
         else p.price_per_100g - minPriceOf df i) := by rw [hdp]; rfl
    have hbest : d.is_best_deal =
        decide (p.price_per_100g = minPriceOf df i) := by rw [hdp]; rfl
    by_cases heq : p.price_per_100g = minPriceOf df i
    · rw [hsav, if_pos heq, hbest, decide_eq_true heq]
      exact ⟨le_refl 0, by simp⟩
    · have hlt : 0 < p.price_per_100g - minPriceOf df i :=
        sub_pos.mpr (lt_of_le_of_ne hmin (Ne.symm heq))
      rw [hsav, if_neg heq, hbest, decide_eq_false heq]
      exact ⟨le_of_lt hlt, by
        constructor
        · intro h; exact absurd h (ne_of_gt hlt)
        · intro h; exact absurd h (by simp)⟩
  · intro i h1 h2
    have havail : availOf df i ≠ [] := by
      intro h; rw [h] at h2; simp at h2
    have hmaps : (availOf df i).map (·.price_per_100g) ≠ [] := by
      intro h
      exact havail (List.map_eq_nil_iff.mp h)
    obtain ⟨a, ha, hav⟩ :=
      List.mem_map.mp (listMin_mem hmaps)
    have hagp : a ∈ groupMembers df (some i) := (List.mem_filter.mp ha).1
    have hapos : 0 < a.price_per_100g :=
      of_decide_eq_true (List.mem_filter.mp ha).2
    have hane : a.price_per_100g ≠ 0 := ne_of_gt hapos
    refine ⟨mkDealRecord i (minPriceOf df i) a,
      mem_identify_best_deals_intro hagp h1 h2 hane, rfl, ?_, ?_⟩
    · show decide (a.price_per_100g = minPriceOf df i) = true
      rw [minPriceOf, hav]
      exact decide_eq_true rfl
    · show (if a.price_per_100g = minPriceOf df i then (0 : ℚ)
        else a.price_per_100g - minPriceOf df i) = 0
      rw [if_pos]
      rw [minPriceOf, hav]

/-- Witness for C4: the three-record pipeline input (all prices nonnegative),
group 0 qualifying. -/
theorem identify_best_deals_savings_witness :
    ∃ d ∈ identify_best_deals exPipeline,
      d.product_group = 0 ∧ d.is_best_deal = true ∧
      d.savings_opportunity = 0 :=
  (identify_best_deals_savings exPipeline
      (of_decide_eq_true (by with_unfolding_all rfl))).2 0
    (of_decide_eq_true (by with_unfolding_all rfl))
    (of_decide_eq_true (by with_unfolding_all rfl))

/-! ## Comparison-table structure lemmas -/

theorem applyProduct_preserves (ic : Bool) (bp : Option String) (row : CompRow)
    (p : DealRow) :
    (applyProduct ic bp row p).product_name = row.product_name ∧
    (applyProduct ic bp row p).brand = row.brand ∧
    (applyProduct ic bp row p).is_comparable = row.is_comparable ∧
    (applyProduct ic bp row p).platforms_available = row.platforms_available := by
  unfold applyProduct
  by_cases h1 : p.platform = "blinkit" <;>
    by_cases h2 : p.platform = "zepto" <;>
      by_cases h3 : p.platform = "bbnow" <;>
        simp [h1, h2, h3]

theorem foldl_applyProduct_preserves (ic : Bool) (bp : Option String) :
    ∀ (l : List DealRow) (row : CompRow),
      ((l.foldl (applyProduct ic bp) row).product_name = row.product_name) ∧
      ((l.foldl (applyProduct ic bp) row).brand = row.brand) ∧
      ((l.foldl (applyProduct ic bp) row).is_comparable = row.is_comparable) ∧
      ((l.foldl (applyProduct ic bp) row).platforms_available =
        row.platforms_available)
  | [], _ => ⟨rfl, rfl, rfl, rfl⟩
  | p :: l, row => by
    have h1 := applyProduct_preserves ic bp row p
    have h2 := foldl_applyProduct_preserves ic bp l (applyProduct ic bp row p)
    simp only [List.foldl_cons]
    exact ⟨h2.1.trans h1.1, h2.2.1.trans h1.2.1, h2.2.2.1.trans h1.2.2.1,
      h2.2.2.2.trans h1.2.2.2⟩

theorem comparisonRow_fields (deals : List DealRow) (g : ℕ) :
    (comparisonRow deals g).product_name =
      modeSmallest ((groupDeals deals g).map (·.name)) ∧
    (comparisonRow deals g).brand =
      modeSmallest ((groupDeals deals g).map (·.brand)) ∧
    (comparisonRow deals g).is_comparable = isComparableOf deals g := by
  unfold comparisonRow
  have h := foldl_applyProduct_preserves (isComparableOf deals g)
    (bestPlatOf deals g) (groupDeals deals g)
  exact ⟨(h _).1, (h _).2.1, (h _).2.2.1⟩

/-! ## Mode lemmas -/

theorem modeFold_spec (xs : List String) :
    ∀ (cs : List String) (c : String),
      (cs.foldl (modeStep xs) c ∈ c :: cs) ∧
      (∀ y ∈ c :: cs, xs.count y ≤ xs.count (cs.foldl (modeStep xs) c)) ∧
      (∀ y ∈ c :: cs, xs.count y = xs.count (cs.foldl (modeStep xs) c) →
        cs.foldl (modeStep xs) c ≤ y)
  | [], c => by
    refine ⟨List.mem_cons_self c [], ?_, ?_⟩
    · intro y hy
      rw [List.mem_singleton.mp hy]
      exact le_refl _
    · intro y hy _
      rw [List.mem_singleton.mp hy]
      exact le_refl _
  | z :: cs, c => by
    set c' := modeStep xs c z with hc'
    have hfold : List.foldl (modeStep xs) c (z :: cs) =
        List.foldl (modeStep xs) c' cs := by
      rw [List.foldl_cons]
    have F : (xs.count c ≤ xs.count c' ∧
        (xs.count c = xs.count c' → c' ≤ c)) ∧
        (xs.count z ≤ xs.count c' ∧ (xs.count z = xs.count c' → c' ≤ z)) := by
      rw [hc', modeStep]
      split
      · rename_i hcond
        rcases hcond with h | ⟨h1, h2⟩
        · exact ⟨⟨le_of_lt h, fun he => absurd he (ne_of_lt h)⟩,
            ⟨le_refl _, fun _ => le_refl z⟩⟩
        · exact ⟨⟨le_of_eq h1.symm, fun _ => le_of_lt h2⟩,
            ⟨le_refl _, fun _ => le_refl z⟩⟩
      · rename_i hcond
        push_neg at hcond
        obtain ⟨hle, htie⟩ := hcond
        constructor
        · exact ⟨le_refl _, fun _ => le_refl c⟩
        · exact ⟨hle, fun he => htie he⟩
    have IH := modeFold_spec xs cs c'
    have hc'mem : c' ∈ [c, z] := by
      rw [hc', modeStep]; split
      · exact List.mem_cons_of_mem c (List.mem_cons_self z [])
      · exact List.mem_cons_self c [z]
    rw [hfold]
    refine ⟨?_, ?_, ?_⟩
    · rcases List.mem_cons.mp IH.1 with h | h
      · rcases List.mem_cons.mp hc'mem with h' | h'
        · rw [h, h']; exact List.mem_cons_self c _
        · rw [h, List.mem_singleton.mp h']
          exact List.mem_cons_of_mem c (List.mem_cons_self z _)
      · exact List.mem_cons_of_mem c (List.mem_cons_of_mem z h)
    · intro y hy
      rcases List.mem_cons.mp hy with h | h
      · rw [h]
        exact le_trans F.1.1 (IH.2.1 c' (List.mem_cons_self c' cs))
      · rcases List.mem_cons.mp h with h' | h'
        · rw [h']
          exact le_trans F.2.1 (IH.2.1 c' (List.mem_cons_self c' cs))
        · exact IH.2.1 y (List.mem_cons_of_mem c' h')
    · intro y hy hcnt
      have hfold_ge := IH.2.1 c' (List.mem_cons_self c' cs)
      rcases List.mem_cons.mp hy with h | h
      · rw [h] at hcnt ⊢
        have h1 : xs.count c' = xs.count (cs.foldl (modeStep xs) c') :=
          le_antisymm hfold_ge (hcnt ▸ F.1.1)
        have h2 : xs.count c = xs.count c' := by omega
        exact le_trans (IH.2.2 c' (List.mem_cons_self c' cs) h1)
          (F.1.2 h2)
      · rcases List.mem_cons.mp h with h' | h'
        · rw [h'] at hcnt ⊢
          have h1 : xs.count c' = xs.count (cs.foldl (modeStep xs) c') :=
            le_antisymm hfold_ge (hcnt ▸ F.2.1)
          have h2 : xs.count z = xs.count c' := by omega
          exact le_trans (IH.2.2 c' (List.mem_cons_self c' cs) h1)
            (F.2.2 h2)
        · exact IH.2.2 y (List.mem_cons_of_mem c' h') hcnt


theorem modeSmallest_isSmallestMode {xs : List String} (h : xs ≠ []) :
    isSmallestMode xs (modeSmallest xs) := by
  obtain ⟨c, cs, hdc⟩ : ∃ c cs, dedupFirst xs = c :: cs := by
    cases hx : dedupFirst xs with
    | nil =>
      cases xs with
      | nil => exact absurd rfl h
      | cons y ys =>
        have : y ∈ dedupFirst (y :: ys) :=
          mem_dedupFirst.mpr (List.mem_cons_self y ys)
        rw [hx] at this
        exact absurd this (List.not_mem_nil y)
    | cons c cs => exact ⟨c, cs, rfl⟩
  have hspec := modeFold_spec xs cs c
  have hmode : modeSmallest xs = cs.foldl (modeStep xs) c := by
    rw [modeSmallest, hdc]
  rw [isSmallestMode, hmode]
  refine ⟨?_, ?_, ?_⟩
  · have := hspec.1
    rw [← hdc] at this
    exact mem_dedupFirst.mp this
  · intro y hy
    exact hspec.2.1 y (hdc ▸ mem_dedupFirst.mpr hy)
  · intro y hy
    exact hspec.2.2 y (hdc ▸ mem_dedupFirst.mpr hy)

/-! ## C9: representative name and brand -/

/-- C9 counterexample: with names `["b", "a"]` (each once) in one group, the
first-encountered tie-break claimed by the spec yields `"b"`, but pandas
`mode()` sorts, so the table shows `"a"`. -/
theorem comparison_table_mode_counterexample :
    modeFirstEncountered (exModeTie.map (·.name)) = "b" ∧
    (create_comparison_table exModeTie).map (·.product_name) = ["a"] ∧
    ("a" : String) ≠ "b" :=
  ⟨by with_unfolding_all rfl, by with_unfolding_all rfl, by decide⟩

/-- C9 amended: each comparison row's representative `product_name` and
`brand` are a most frequent value among the group's members, with ties broken
by the **lexicographically smallest** value (pandas `mode()` sorts its
result), not by first occurrence. -/
theorem comparison_table_mode (deals : List DealRow) :
    ∀ row ∈ create_comparison_table deals,
      ∃ g ∈ dedupFirst (deals.map (·.product_group)),
        row = comparisonRow deals g ∧
        isSmallestMode ((groupDeals deals g).map (·.name))
          row.product_name ∧
        isSmallestMode ((groupDeals deals g).map (·.brand))
          row.brand := by
  intro row hrow
  obtain ⟨g, hg, hroweq⟩ := List.mem_map.mp hrow
  obtain ⟨d, hd, hdg⟩ := List.mem_map.mp (mem_dedupFirst.mp hg)
  have hdfil : d ∈ groupDeals deals g :=
    List.mem_filter.mpr ⟨hd, decide_eq_true hdg⟩
  have hnames : ((groupDeals deals g).map (·.name)) ≠ [] := by
    intro hx
    rw [List.map_eq_nil_iff] at hx
    rw [hx] at hdfil
    exact List.not_mem_nil d hdfil
  have hbrands : ((groupDeals deals g).map (·.brand)) ≠ [] := by
    intro hx
    rw [List.map_eq_nil_iff] at hx
    rw [hx] at hdfil
    exact List.not_mem_nil d hdfil
  have hf := comparisonRow_fields deals g
  rw [hroweq] at hf
  refine ⟨g, hg, hroweq.symm, ?_, ?_⟩
  · rw [hf.1]
    exact modeSmallest_isSmallestMode hnames
  · rw [hf.2.1]
    exact modeSmallest_isSmallestMode hbrands

/-! ## Scorer and matcher lemmas (for C3) -/

theorem lcs_self : ∀ cs : List Char, lcs cs cs = cs.length
  | [] => rfl
  | c :: cs => by
    show (if c = c then lcs cs cs + 1
      else max (lcsWith (lcs cs) c cs) (lcs cs (c :: cs))) = (c :: cs).length
    rw [if_pos rfl, lcs_self cs, List.length_cons]

theorem roundHalfEven_intCast (n : ℤ) : roundHalfEven (n : ℚ) = n := by
  unfold roundHalfEven
  rw [Int.floor_intCast]
  rw [if_pos (by norm_num : (n : ℚ) - n < 1 / 2)]

theorem tokenSortScore_self (s : String) : tokenSortScore s s = 100 := by
  unfold tokenSortScore indelScore
  set t := List.intercalate [' '] (sortTokens (tokensOf (fullProcess s))) with ht
  by_cases h : t.length + t.length = 0
  · rw [if_pos h]
  · rw [if_neg h]
    have hlen : (t.length : ℚ) ≠ 0 := by
      intro hc
      apply h
      have : t.length = 0 := by exact_mod_cast hc
      omega
    have hval : (200 : ℚ) * (lcs t t : ℚ) / ((t.length + t.length : ℕ) : ℚ)
        = ((100 : ℤ) : ℚ) := by
      rw [lcs_self]
      push_cast
      field_simp
      ring
    rw [hval, roundHalfEven_intCast]
    rfl

theorem mem_insertScoredDesc {x y : String × ℕ} :
    ∀ {l : List (String × ℕ)}, x ∈ insertScoredDesc y l ↔ x = y ∨ x ∈ l
  | [] => by simp [insertScoredDesc]
  | z :: zs => by
    rw [insertScoredDesc]
    split
    · rw [List.mem_cons, mem_insertScoredDesc (l := zs), List.mem_cons]
      tauto
    · simp [List.mem_cons]

theorem mem_sortScoredDesc_aux (x : String × ℕ) :
    ∀ (l acc : List (String × ℕ)),
      x ∈ l.foldl (fun a y => insertScoredDesc y a) acc ↔ x ∈ l ∨ x ∈ acc
  | [], acc => by simp
  | y :: l, acc => by
    rw [List.foldl_cons, mem_sortScoredDesc_aux x l, mem_insertScoredDesc,
      List.mem_cons]
    tauto

theorem mem_sortScoredDesc {x : String × ℕ} {l : List (String × ℕ)} :
    x ∈ sortScoredDesc l ↔ x ∈ l := by
  rw [sortScoredDesc, mem_sortScoredDesc_aux]
  simp

theorem length_insertScoredDesc (y : String × ℕ) :
    ∀ (l : List (String × ℕ)),
      (insertScoredDesc y l).length = l.length + 1
  | [] => rfl
  | z :: zs => by
    rw [insertScoredDesc]
    split
    · rw [List.length_cons, length_insertScoredDesc y zs, List.length_cons]
    · rfl

theorem length_sortScoredDesc_aux :
    ∀ (l acc : List (String × ℕ)),
      (l.foldl (fun a y => insertScoredDesc y a) acc).length =
        l.length + acc.length
  | [], acc => by simp
  | y :: l, acc => by
    rw [List.foldl_cons, length_sortScoredDesc_aux l,
      length_insertScoredDesc, List.length_cons]
    omega

theorem length_sortScoredDesc (l : List (String × ℕ)) :
    (sortScoredDesc l).length = l.length := by
  rw [sortScoredDesc, length_sortScoredDesc_aux]
  rfl

theorem mem_extract_of_le {score : String → String → ℕ} {q c : String}
    {choices : List String} {limit : ℕ} (hlen : choices.length ≤ limit)
    (hc : c ∈ choices) :
    (c, score q c) ∈ extract score q choices limit := by
  rw [extract]
  have hmem : (c, score q c) ∈ sortScoredDesc (choices.map fun c => (c, score q c)) :=
    mem_sortScoredDesc.mpr (List.mem_map.mpr ⟨c, hc, rfl⟩)
  have hl : (sortScoredDesc (choices.map fun c => (c, score q c))).length ≤ limit := by
    rw [length_sortScoredDesc, List.length_map]
    exact hlen
  rw [List.take_of_length_le hl]
  exact hmem


theorem insertGroup_inv {g : String} {ms : List String}
    (hg : g ∈ ms) (hle : ∀ k ∈ ms, g ≤ k) :
    ∀ (groups : List (String × List String)),
      (∀ e ∈ groups, GroupInv e) →
      ∀ e ∈ insertGroup g ms groups, GroupInv e := by
  intro groups
  induction groups with
  | nil =>
    intro _ e he
    rw [insertGroup] at he
    rw [List.mem_singleton.mp he]
    exact ⟨hg, hle⟩
  | cons p rest ih =>
    obtain ⟨k, ms0⟩ := p
    intro hinv e he
    rw [insertGroup] at he
    split at he
    · rename_i hkg
      rcases List.mem_cons.mp he with hfst | hrest
      · rw [hfst]
        have h0 := hinv (k, ms0) (List.mem_cons_self _ _)
        refine ⟨List.mem_append_left _ h0.1, ?_⟩
        intro x hx
        rcases List.mem_append.mp hx with hx | hx
        · exact h0.2 x hx
        · rw [hkg]
          exact hle x hx
      · exact hinv e (List.mem_cons_of_mem _ hrest)
    · rcases List.mem_cons.mp he with hfst | hrest
      · rw [hfst]
        exact hinv (k, ms0) (List.mem_cons_self _ _)
      · exact ih (fun e' he' => hinv e' (List.mem_cons_of_mem _ he')) e hrest


theorem inSomeGroup_insertGroup_of_mem {g : String} {ms : List String}
    {x : String} (hx : x ∈ ms) :
    ∀ (groups : List (String × List String)),
      inSomeGroup (insertGroup g ms groups) x
  | [] => ⟨(g, ms), List.mem_singleton.mpr rfl, hx⟩
  | (k, ms0) :: rest => by
    rw [insertGroup]
    split
    · exact ⟨(k, ms0 ++ ms), List.mem_cons_self _ _, List.mem_append_right _ hx⟩
    · obtain ⟨e, he, hxe⟩ := inSomeGroup_insertGroup_of_mem hx rest
      exact ⟨e, List.mem_cons_of_mem _ he, hxe⟩

theorem inSomeGroup_insertGroup_mono {g : String} {ms : List String}
    {x : String} :
    ∀ (groups : List (String × List String)),
      inSomeGroup groups x → inSomeGroup (insertGroup g ms groups) x := by
  intro groups
  induction groups with
  | nil =>
    rintro ⟨e, he, _⟩
    exact absurd he (List.not_mem_nil e)
  | cons p rest ih =>
    obtain ⟨k, ms0⟩ := p
    rintro ⟨e, he, hxe⟩
    rw [insertGroup]
    split
    · rcases List.mem_cons.mp he with hfst | hrest
      · rw [hfst] at hxe
        exact ⟨(k, ms0 ++ ms), List.mem_cons_self _ _,
          List.mem_append_left _ hxe⟩
      · exact ⟨e, List.mem_cons_of_mem _ hrest, hxe⟩
    · rcases List.mem_cons.mp he with hfst | hrest
      · rw [hfst] at hxe
        exact ⟨(k, ms0), List.mem_cons_self _ _, hxe⟩
      · obtain ⟨e', he', hxe'⟩ := ih ⟨e, hrest, hxe⟩
        exact ⟨e', List.mem_cons_of_mem _ he', hxe'⟩

theorem fuzzyStep_inv (score : String → String → ℕ) (th : ℕ)
    (keys : List String) (groups : List (String × List String)) (k : String)
    (hinv : ∀ e ∈ groups, GroupInv e) :
    ∀ e ∈ fuzzyStep score th keys groups k, GroupInv e := by
  rw [fuzzyStep]
  by_cases hh : (highMatches score th keys k).isEmpty
  · rw [if_pos hh]
    exact hinv
  · rw [if_neg hh]
    have hne : highMatches score th keys k ≠ [] := by
      intro hx
      rw [hx] at hh
      exact hh rfl
    exact insertGroup_inv (minString_mem hne)
      (fun x hx => minString_le hx) groups hinv

theorem foldl_fuzzyStep_inv (score : String → String → ℕ) (th : ℕ)
    (keys : List String) :
    ∀ (l : List String) (acc : List (String × List String)),
      (∀ e ∈ acc, GroupInv e) →
      ∀ e ∈ l.foldl (fuzzyStep score th keys) acc, GroupInv e
  | [], _, hinv => hinv
  | k :: l, acc, hinv => by
    rw [List.foldl_cons]
    exact foldl_fuzzyStep_inv score th keys l (fuzzyStep score th keys acc k)
      (fuzzyStep_inv score th keys acc k hinv)

theorem fuzzyStep_mono {x : String} (score : String → String → ℕ) (th : ℕ)
    (keys : List String) (groups : List (String × List String)) (k : String)
    (h : inSomeGroup groups x) :
    inSomeGroup (fuzzyStep score th keys groups k) x := by
  rw [fuzzyStep]
  by_cases hh : (highMatches score th keys k).isEmpty
  · rw [if_pos hh]; exact h
  · rw [if_neg hh]
    exact inSomeGroup_insertGroup_mono groups h

theorem foldl_fuzzyStep_mono {x : String} (score : String → String → ℕ)
    (th : ℕ) (keys : List String) :
    ∀ (l : List String) (acc : List (String × List String)),
      inSomeGroup acc x →
      inSomeGroup (l.foldl (fuzzyStep score th keys) acc) x
  | [], _, h => h
  | k :: l, acc, h => by
    rw [List.foldl_cons]
    exact foldl_fuzzyStep_mono score th keys l _
      (fuzzyStep_mono score th keys acc k h)

theorem foldl_fuzzyStep_adds {x : String} (score : String → String → ℕ)
    (th : ℕ) (keys : List String)
    (hhigh : x ∈ highMatches score th keys x) :
    ∀ (l : List String) (acc : List (String × List String)),
      x ∈ l → inSomeGroup (l.foldl (fuzzyStep score th keys) acc) x
  | [], _, hx => absurd hx (List.not_mem_nil x)
  | k :: l, acc, hx => by
    rw [List.foldl_cons]
    rcases List.mem_cons.mp hx with hfst | hrest
    · subst hfst
      refine foldl_fuzzyStep_mono score th keys l _ ?_
      rw [fuzzyStep]
      have hne : ¬(highMatches score th keys x).isEmpty := by
        intro hc
        rw [List.isEmpty_iff.mp hc] at hhigh
        exact List.not_mem_nil x hhigh
      rw [if_neg hne]
      exact inSomeGroup_insertGroup_of_mem hhigh acc
    · exact foldl_fuzzyStep_adds score th keys hhigh l _ hrest

theorem self_mem_highMatches (score : String → String → ℕ) (th : ℕ)
    (keys : List String) (x : String) (hx : x ∈ keys)
    (hlen : keys.length ≤ 10) (hself : th ≤ score x x) :
    x ∈ highMatches score th keys x := by
  rw [highMatches]
  refine List.mem_map.mpr ⟨(x, score x x), ?_, rfl⟩
  exact List.mem_filter.mpr ⟨mem_extract_of_le hlen hx, decide_eq_true hself⟩

/-! ## The `group_mapping` dict (for C3(b)) -/

theorem updateKeys_apply (i : ℕ) (s : String) :
    ∀ (ks : List String) (m : String → Option ℕ),
      updateKeys m ks i s = if s ∈ ks then some i else m s
  | [], m => by simp [updateKeys]
  | k :: ks, m => by
    rw [updateKeys, List.foldl_cons]
    have hrec := updateKeys_apply i s ks
      (fun s' => if s' = k then some i else m s')
    rw [updateKeys] at hrec
    rw [hrec]
    by_cases h1 : s ∈ ks
    · rw [if_pos h1, if_pos (List.mem_cons_of_mem k h1)]
    · rw [if_neg h1]
      by_cases h2 : s = k
      · rw [if_pos h2, if_pos (List.mem_cons.mpr (Or.inl h2))]
      · rw [if_neg h2, if_neg (by
          intro hc
          rcases List.mem_cons.mp hc with h | h
          exacts [h2 h, h1 h])]

theorem buildMapping_concat (l : List (String × List String))
    (e : String × List String) (k : String) :
    buildMapping (l ++ [e]) k =
      if k ∈ e.2 then some l.length else buildMapping l k := by
  unfold buildMapping
  rw [List.enum_append, List.foldl_append]
  show updateKeys (l.enum.foldl (fun acc p => updateKeys acc p.2.2 p.1)
    (fun _ => none)) e.2 l.length k = _
  rw [updateKeys_apply]

theorem buildMapping_eq_some (groups : List (String × List String))
    (k : String) (i : ℕ) :
    buildMapping groups k = some i ↔
      ((∃ e, groups.get? i = some e ∧ k ∈ e.2) ∧
       ∀ j e, i < j → groups.get? j = some e → k ∉ e.2) := by
  induction groups using List.reverseRecOn with
  | nil =>
    constructor
    · intro h
      exact absurd h (by simp [buildMapping])
    · rintro ⟨⟨e, hget, _⟩, _⟩
      rw [List.get?_nil] at hget
      exact absurd hget (Option.noConfusion)
  | append_singleton l e ih =>
    rw [buildMapping_concat]
    by_cases hk : k ∈ e.2
    · rw [if_pos hk]
      constructor
      · intro h
        have hi : i = l.length := (Option.some.inj h).symm
        subst hi
        refine ⟨⟨e, ?_, hk⟩, ?_⟩
        · rw [List.get?_concat_length]
        · intro j e' hj hget
          obtain ⟨hlt, _⟩ := List.get?_eq_some.mp hget
          rw [List.length_append, List.length_singleton] at hlt
          omega
      · rintro ⟨⟨e', hget, hke'⟩, hlater⟩
        obtain ⟨hlt, _⟩ := List.get?_eq_some.mp hget
        rw [List.length_append, List.length_singleton] at hlt
        rcases Nat.lt_or_ge i l.length with hil | hil
        · exact absurd hk
            (hlater l.length e hil (by rw [List.get?_concat_length]))
        · have : i = l.length := by omega
          rw [this]
    · rw [if_neg hk, ih]
      constructor
      · rintro ⟨⟨e', hget, hke'⟩, hlater⟩
        obtain ⟨hil, _⟩ := List.get?_eq_some.mp hget
        refine ⟨⟨e', ?_, hke'⟩, ?_⟩
        · rw [List.get?_append hil]
          exact hget
        · intro j e'' hj hget2
          obtain ⟨hjl, _⟩ := List.get?_eq_some.mp hget2
          rw [List.length_append, List.length_singleton] at hjl
          by_cases hjlen : j < l.length
          · exact hlater j e'' hj (by rw [← List.get?_append hjlen]; exact hget2)
          · have hjeq : j = l.length := by omega
            subst hjeq
            rw [List.get?_concat_length] at hget2
            rw [← Option.some.inj hget2]
            exact hk
      · rintro ⟨⟨e', hget, hke'⟩, hlater⟩
        obtain ⟨hil, _⟩ := List.get?_eq_some.mp hget
        rw [List.length_append, List.length_singleton] at hil
        by_cases hil2 : i < l.length
        · refine ⟨⟨e', ?_, hke'⟩, ?_⟩
          · rw [List.get?_append hil2] at hget
            exact hget
          · intro j e'' hj hget2
            obtain ⟨hjl, _⟩ := List.get?_eq_some.mp hget2
            exact hlater j e'' hj
              (by rw [List.get?_append hjl]; exact hget2)
        · have hieq : i = l.length := by omega
          subst hieq
          rw [List.get?_concat_length] at hget
          have hee : e = e' := Option.some.inj hget
          subst hee
          exact absurd hke' hk

theorem buildMapping_ne_none {k : String} :
    ∀ {groups : List (String × List String)},
      (∃ e ∈ groups, k ∈ e.2) → buildMapping groups k ≠ none := by
  intro groups
  induction groups using List.reverseRecOn with
  | nil =>
    rintro ⟨e, he, _⟩
    exact absurd he (List.not_mem_nil e)
  | append_singleton l e ih =>
    rintro ⟨e', he', hke'⟩
    rw [buildMapping_concat]
    by_cases hk : k ∈ e.2
    · rw [if_pos hk]
      exact Option.noConfusion
    · rw [if_neg hk]
      rcases List.mem_append.mp he' with h | h
      · exact ih ⟨e', h, hke'⟩
      · rw [List.mem_singleton.mp h] at hke'
        exact absurd hke' hk

/-! ## C3: grouping algorithm -/

set_option maxRecDepth 100000 in
/-- C3 counterexample: eleven distinct keys that are pairwise permutations of
the same tokens (every pairwise token-sort score is 100, in particular
self-similarity is 100).  The `limit=10` cap of `process.extract` cuts the
eleventh key from every match-set — including its own — so its record ends
with no group id (`none`), refuting "no record is left ungrouped". -/
theorem fuzzy_match_products_cap_counterexample :
    (∀ a ∈ permKeys, ∀ b ∈ permKeys, tokenSortScore a b = 100) ∧
    permKeys.length = 11 ∧
    (dedupFirst (permRows.map (·.product_key))).length = 11 ∧
    (fuzzy_match_products 80 permRows).map (·.product_group) =
      [some 0, some 0, some 0, some 0, some 0, some 0, some 0, some 0,
       some 0, some 0, none] :=
  ⟨of_decide_eq_true (by with_unfolding_all rfl), rfl,
   by with_unfolding_all rfl, by with_unfolding_all rfl⟩

/-- C3 amended: (a) every accumulated product group is filed under its
lexicographically smallest member key, which belongs to the group; (b) a key
occurring in several member lists is mapped to the id of the **last** group
list, in discovery order of group identifiers, containing it (dict writes in
iteration order, later writes winning); (c) every key has token-sort
self-similarity 100, and whenever the catalog has at most 10 distinct keys
(the `process.extract` cap) every record is assigned a group id.  With more
than 10 distinct keys the cap can exclude a key from every match-set and
leave its record ungrouped. -/
theorem fuzzy_match_products_grouping (df : List CleanRow) :
    (∀ e ∈ fuzzyGroups tokenSortScore 80 (dedupFirst (df.map (·.product_key))),
      e.1 ∈ e.2 ∧ ∀ k ∈ e.2, e.1 ≤ k) ∧
    (∀ k i,
      buildMapping (fuzzyGroups tokenSortScore 80
        (dedupFirst (df.map (·.product_key)))) k = some i ↔
      ((∃ e, (fuzzyGroups tokenSortScore 80
          (dedupFirst (df.map (·.product_key)))).get? i = some e ∧ k ∈ e.2) ∧
       ∀ j e, i < j →
         (fuzzyGroups tokenSortScore 80
           (dedupFirst (df.map (·.product_key)))).get? j = some e →
         k ∉ e.2)) ∧
    (∀ s : String, tokenSortScore s s = 100) ∧
    ((dedupFirst (df.map (·.product_key))).length ≤ 10 →
      ∀ r ∈ fuzzy_match_products 80 df, r.product_group ≠ none) := by
  refine ⟨?_, ?_, tokenSortScore_self, ?_⟩
  · intro e he
    rw [fuzzyGroups] at he
    exact foldl_fuzzyStep_inv tokenSortScore 80
      (dedupFirst (df.map (·.product_key)))
      (dedupFirst (df.map (·.product_key))) []
      (fun e' he' => absurd he' (List.not_mem_nil e')) e he
  · intro k i
    exact buildMapping_eq_some _ k i
  · intro hlen r hr
    simp only [fuzzy_match_products, List.mem_map] at hr
    obtain ⟨row, hrow, hreq⟩ := hr
    have hpg : r.product_group =
        buildMapping (fuzzyGroups tokenSortScore 80
          (dedupFirst (df.map (·.product_key)))) row.product_key := by
      rw [← hreq]
    have hx : row.product_key ∈ dedupFirst (df.map (·.product_key)) :=
      mem_dedupFirst.mpr (List.mem_map.mpr ⟨row, hrow, rfl⟩)
    have hhigh : row.product_key ∈ highMatches tokenSortScore 80
        (dedupFirst (df.map (·.product_key))) row.product_key :=
      self_mem_highMatches tokenSortScore 80 _ _ hx hlen
        (by rw [tokenSortScore_self]; norm_num)
    have hsome := foldl_fuzzyStep_adds tokenSortScore 80
      (dedupFirst (df.map (·.product_key))) hhigh
      (dedupFirst (df.map (·.product_key))) [] hx
    rw [hpg]
    refine buildMapping_ne_none ?_
    rw [fuzzyGroups]
    exact hsome

/-- Witness for C3 at a concrete two-record catalog (two permuted keys, well
under the cap): both records are grouped. -/
theorem fuzzy_match_products_grouping_witness :
    ((dedupFirst (exTwoRows.map (·.product_key))).length ≤ 10) ∧
    ({ toCleanRow := mkKeyRow "k_a b", product_group := some 0 } :
        MatchedRow).product_group ≠ none :=
  ⟨of_decide_eq_true (by with_unfolding_all rfl),
   (fuzzy_match_products_grouping exTwoRows).2.2.2
     (of_decide_eq_true (by with_unfolding_all rfl))
     { toCleanRow := mkKeyRow "k_a b", product_group := some 0 }
     (of_decide_eq_true (by with_unfolding_all rfl))⟩

/-! ## Best-flag lemmas for the table builder -/

theorem stepSlot_isBest (s : Slot) (p : DealRow) (mark : Bool) :
    (stepSlot s p mark).isBest = (s.isBest || mark) := by
  unfold stepSlot
  cases mark <;> cases hp : s.per100 <;> simp [hp] <;> (split <;> simp)

theorem slotOf_applyProduct (ic : Bool) (bp : Option String) (row : CompRow)
    (p : DealRow) (s : String)
    (hs : s = "blinkit" ∨ s = "zepto" ∨ s = "bbnow") :
    slotOf (applyProduct ic bp row p) s =
      if p.platform = s then
        stepSlot (slotOf row s) p (ic && bp == some p.platform)
      else slotOf row s := by
  rcases hs with h | h | h <;> subst h <;> by_cases hp : p.platform = "blinkit"
    <;> by_cases hz : p.platform = "zepto"
    <;> by_cases hb : p.platform = "bbnow"
    <;> simp_all [applyProduct, slotOf]

theorem foldl_applyProduct_isBest (ic : Bool) (bp : Option String) (s : String)
    (hs : s = "blinkit" ∨ s = "zepto" ∨ s = "bbnow") :
    ∀ (l : List DealRow) (row : CompRow),
      (slotOf (l.foldl (applyProduct ic bp) row) s).isBest = true ↔
        (slotOf row s).isBest = true ∨
        (ic = true ∧ bp = some s ∧ ∃ p ∈ l, p.platform = s)
  | [], row => by simp
  | p :: l, row => by
    rw [List.foldl_cons,
      foldl_applyProduct_isBest ic bp s hs l (applyProduct ic bp row p),
      slotOf_applyProduct ic bp row p s hs]
    by_cases hp : p.platform = s
    · rw [if_pos hp, stepSlot_isBest]
      simp only [Bool.or_eq_true, Bool.and_eq_true, beq_iff_eq, hp]
      constructor
      · rintro ((h | ⟨hic, hbp⟩) | ⟨hic, hbp, q, hq, hqs⟩)
        · exact Or.inl h
        · exact Or.inr ⟨hic, hbp, p, List.mem_cons_self p l, hp⟩
        · exact Or.inr ⟨hic, hbp, q, List.mem_cons_of_mem p hq, hqs⟩
      · rintro (h | ⟨hic, hbp, q, hq, hqs⟩)
        · exact Or.inl (Or.inl h)
        · exact Or.inl (Or.inr ⟨hic, hbp⟩)
    · rw [if_neg hp]
      constructor
      · rintro (h | ⟨hic, hbp, q, hq, hqs⟩)
        · exact Or.inl h
        · exact Or.inr ⟨hic, hbp, q, List.mem_cons_of_mem p hq, hqs⟩
      · rintro (h | ⟨hic, hbp, q, hq, hqs⟩)
        · exact Or.inl h
        · rcases List.mem_cons.mp hq with h' | h'
          · exact absurd (h' ▸ hqs) hp
          · exact Or.inr ⟨hic, hbp, q, h', hqs⟩

theorem foldl_min_eq : ∀ (l : List ℚ) (a : ℚ), l ≠ [] →
    l.foldl min a = min a (listMin l)
  | [], _, h => absurd rfl h
  | [x], a, _ => by simp [listMin]
  | x :: y :: xs, a, _ => by
    have h1 := foldl_min_eq (y :: xs) (min a x) (by simp)
    have h2 := foldl_min_eq (y :: xs) x (by simp)
    simp only [List.foldl_cons] at h1 h2 ⊢
    rw [h1]
    have : listMin (x :: y :: xs) = min x (listMin (y :: xs)) := by
      rw [listMin]
      simpa using h2
    rw [this, min_assoc]

theorem foldl_bpStep_ge : ∀ (l : List DealRow) (b : ℚ) (s : String),
    (∀ p ∈ l, b ≤ p.price_per_100g) →
    l.foldl bpStep (some (b, s)) = some (b, s)
  | [], _, _, _ => rfl
  | p :: l, b, s, h => by
    have hb : ¬p.price_per_100g < b :=
      not_lt.mpr (h p (List.mem_cons_self p l))
    rw [List.foldl_cons]
    show l.foldl bpStep
      (if p.price_per_100g < b then some (p.price_per_100g, p.platform)
       else some (b, s)) = some (b, s)
    rw [if_neg hb]
    exact foldl_bpStep_ge l b s fun q hq => h q (List.mem_cons_of_mem p hq)

theorem foldl_bpStep_lt : ∀ (l : List DealRow) (b : ℚ) (s : String),
    l ≠ [] → listMin (l.map (·.price_per_100g)) < b →
    ∃ p, (l.find? fun q =>
        decide (q.price_per_100g = listMin (l.map (·.price_per_100g)))) =
          some p ∧
      l.foldl bpStep (some (b, s)) =
        some (listMin (l.map (·.price_per_100g)), p.platform)
  | [], _, _, h, _ => absurd rfl h
  | x :: rest, b, s, _, hm => by
    by_cases hrne : rest = []
    · subst hrne
      refine ⟨x, ?_, ?_⟩
      · exact List.find?_cons_of_pos _ (decide_eq_true rfl)
      · show (if x.price_per_100g < b then some (x.price_per_100g, x.platform)
           else some (b, s)) = _
        rw [if_pos (show x.price_per_100g < b from hm)]
        rfl
    · have hmapne : rest.map (·.price_per_100g) ≠ [] := by
        intro hx
        exact hrne (List.map_eq_nil_iff.mp hx)
      have hmcons : listMin ((x :: rest).map (·.price_per_100g)) =
          min x.price_per_100g (listMin (rest.map (·.price_per_100g))) := by
        rw [List.map_cons, listMin]
        exact foldl_min_eq (rest.map (·.price_per_100g)) x.price_per_100g hmapne
      by_cases hxb : x.price_per_100g < b
      · have hstep : (x :: rest).foldl bpStep (some (b, s)) =
            rest.foldl bpStep (some (x.price_per_100g, x.platform)) := by
          show rest.foldl bpStep
            (if x.price_per_100g < b then some (x.price_per_100g, x.platform)
             else some (b, s)) = _
          rw [if_pos hxb]
        by_cases hmx : listMin (rest.map (·.price_per_100g)) < x.price_per_100g
        · have hmin : listMin ((x :: rest).map (·.price_per_100g)) =
              listMin (rest.map (·.price_per_100g)) := by
            rw [hmcons]; exact min_eq_right (le_of_lt hmx)
          obtain ⟨p, hfind, hfold⟩ :=
            foldl_bpStep_lt rest x.price_per_100g x.platform hrne hmx
          refine ⟨p, ?_, ?_⟩
          · rw [List.find?_cons_of_neg _ ?_]
            · rw [hmin]
              exact hfind
            · intro hc
              rw [hmin] at hc
              exact ne_of_gt hmx (of_decide_eq_true hc)
          · rw [hstep, hmin]
            exact hfold
        · have hxm : x.price_per_100g ≤ listMin (rest.map (·.price_per_100g)) :=
            not_lt.mp hmx
          have hmin : listMin ((x :: rest).map (·.price_per_100g)) =
              x.price_per_100g := by
            rw [hmcons]; exact min_eq_left hxm
          refine ⟨x, ?_, ?_⟩
          · exact List.find?_cons_of_pos _
              (by rw [hmin]; exact decide_eq_true rfl)
          · rw [hstep, hmin,
              foldl_bpStep_ge rest x.price_per_100g x.platform ?_]
            intro q hq
            exact le_trans hxm
              (listMin_le (List.mem_map.mpr ⟨q, hq, rfl⟩))
      · have hbx : b ≤ x.price_per_100g := not_lt.mp hxb
        have hstep : (x :: rest).foldl bpStep (some (b, s)) =
            rest.foldl bpStep (some (b, s)) := by
          show rest.foldl bpStep
            (if x.price_per_100g < b then some (x.price_per_100g, x.platform)
             else some (b, s)) = _
          rw [if_neg hxb]
        have hmlt : listMin ((x :: rest).map (·.price_per_100g)) <
            x.price_per_100g := lt_of_lt_of_le hm hbx
        have hmrx : listMin (rest.map (·.price_per_100g)) < x.price_per_100g := by
          by_contra hc
          rw [hmcons, min_eq_left (not_lt.mp hc)] at hmlt
          exact lt_irrefl _ hmlt
        have hmin : listMin ((x :: rest).map (·.price_per_100g)) =
            listMin (rest.map (·.price_per_100g)) := by
          rw [hmcons]; exact min_eq_right (le_of_lt hmrx)
        obtain ⟨p, hfind, hfold⟩ := foldl_bpStep_lt rest b s hrne (by
          rw [hmin] at hm; exact hm)
        refine ⟨p, ?_, ?_⟩
        · rw [List.find?_cons_of_neg _ ?_]
          · rw [hmin]
            exact hfind
          · intro hc
            rw [hmin] at hc
            exact ne_of_gt hmrx (of_decide_eq_true hc)
        · rw [hstep, hmin]
          exact hfold

theorem bestPlatform_find (gp : List DealRow) (hne : gp ≠ []) :
    ∃ p, (gp.find? fun q =>
        decide (q.price_per_100g = listMin (gp.map (·.price_per_100g)))) =
          some p ∧
      bestPlatform gp =
        some (listMin (gp.map (·.price_per_100g)), p.platform) := by
  cases gp with
  | nil => exact absurd rfl hne
  | cons x rest =>
    have hstart : bestPlatform (x :: rest) =
        rest.foldl bpStep (some (x.price_per_100g, x.platform)) := rfl
    by_cases hrne : rest = []
    · subst hrne
      refine ⟨x, ?_, ?_⟩
      · exact List.find?_cons_of_pos _ (decide_eq_true rfl)
      · rw [hstart]; rfl
    · have hmapne : rest.map (·.price_per_100g) ≠ [] := by
        intro hx
        exact hrne (List.map_eq_nil_iff.mp hx)
      have hmcons : listMin ((x :: rest).map (·.price_per_100g)) =
          min x.price_per_100g (listMin (rest.map (·.price_per_100g))) := by
        rw [List.map_cons, listMin]
        exact foldl_min_eq (rest.map (·.price_per_100g)) x.price_per_100g hmapne
      by_cases hmx : listMin (rest.map (·.price_per_100g)) < x.price_per_100g
      · have hmin : listMin ((x :: rest).map (·.price_per_100g)) =
            listMin (rest.map (·.price_per_100g)) := by
          rw [hmcons]; exact min_eq_right (le_of_lt hmx)
        obtain ⟨p, hfind, hfold⟩ :=
          foldl_bpStep_lt rest x.price_per_100g x.platform hrne hmx
        refine ⟨p, ?_, ?_⟩
        · rw [List.find?_cons_of_neg _ ?_]
          · rw [hmin]
            exact hfind
          · intro hc
            rw [hmin] at hc
            exact ne_of_gt hmx (of_decide_eq_true hc)
        · rw [hstart, hmin]
          exact hfold
      · have hxm : x.price_per_100g ≤ listMin (rest.map (·.price_per_100g)) :=
          not_lt.mp hmx
        have hmin : listMin ((x :: rest).map (·.price_per_100g)) =
            x.price_per_100g := by
          rw [hmcons]; exact min_eq_left hxm
        refine ⟨x, ?_, ?_⟩
        · exact List.find?_cons_of_pos _
            (by rw [hmin]; exact decide_eq_true rfl)
        · rw [hstart, hmin,
            foldl_bpStep_ge rest x.price_per_100g x.platform ?_]
          intro q hq
          exact le_trans hxm (listMin_le (List.mem_map.mpr ⟨q, hq, rfl⟩))

theorem slotOf_blinkit (row : CompRow) : slotOf row "blinkit" = row.blinkit := by
  simp [slotOf]

theorem slotOf_zepto (row : CompRow) : slotOf row "zepto" = row.zepto := by
  simp [slotOf]

theorem slotOf_bbnow (row : CompRow) : slotOf row "bbnow" = row.bbnow := by
  simp [slotOf]

/-! ## C10: at most one best flag per row -/

/-- C10: in every comparison row at most one per-platform `is_best` slot is
true; non-comparable rows have no slot marked; and in a comparable row the
marked slot is exactly the platform of the **first** group record attaining
the minimal `price_per_100g` (`find?` semantics — the scan uses strict `<`,
so ties keep the earliest record).  The hypothesis pins the pipeline's three
platform names, which form the table's fixed column schema. -/
theorem comparison_table_unique_best (deals : List DealRow)
    (_hplat : ∀ d ∈ deals, d.platform = "blinkit" ∨ d.platform = "zepto" ∨
      d.platform = "bbnow") :
    ∀ row ∈ create_comparison_table deals,
      ((bestFlags row).count true ≤ 1) ∧
      (row.is_comparable = false → bestFlags row = [false, false, false]) ∧
      (row.is_comparable = true →
        ∃ g ∈ dedupFirst (deals.map (·.product_group)),
          row = comparisonRow deals g ∧
          ∃ p, ((groupDeals deals g).find? fun q =>
              decide (q.price_per_100g =
                listMin ((groupDeals deals g).map (·.price_per_100g)))) =
                some p ∧
            ∀ s, (s = "blinkit" ∨ s = "zepto" ∨ s = "bbnow") →
              ((slotOf row s).isBest = true ↔ s = p.platform)) := by
  intro row hrow
  obtain ⟨g, hg, heq⟩ := List.mem_map.mp hrow
  have hcomp : row.is_comparable = isComparableOf deals g := by
    rw [← heq]; exact (comparisonRow_fields deals g).2.2
  have hisBest : ∀ s, (s = "blinkit" ∨ s = "zepto" ∨ s = "bbnow") →
      ((slotOf row s).isBest = true ↔
        (isComparableOf deals g = true ∧ bestPlatOf deals g = some s ∧
         ∃ p ∈ groupDeals deals g, p.platform = s)) := by
    intro s hs
    rw [← heq, comparisonRow,
      foldl_applyProduct_isBest (isComparableOf deals g) (bestPlatOf deals g)
        s hs]
    constructor
    · rintro (h | h)
      · rcases hs with h' | h' | h' <;> subst h' <;>
          simp [slotOf, Slot.empty] at h
      · exact h
    · intro h
      exact Or.inr h
  by_cases hic : isComparableOf deals g = true
  · have hgpne : groupDeals deals g ≠ [] := by
      intro h
      have h2 := of_decide_eq_true hic
      rw [h] at h2
      simp [dedupFirst, dedupFirstAux] at h2
    obtain ⟨p, hfind, hbp⟩ := bestPlatform_find (groupDeals deals g) hgpne
    have hbpo : bestPlatOf deals g = some p.platform := by
      rw [bestPlatOf, if_pos hic, hbp]
      rfl
    have hiff : ∀ s, (s = "blinkit" ∨ s = "zepto" ∨ s = "bbnow") →
        ((slotOf row s).isBest = true ↔ s = p.platform) := by
      intro s hs
      rw [hisBest s hs]
      constructor
      · rintro ⟨_, hsome, _⟩
        rw [hbpo] at hsome
        exact (Option.some.inj hsome).symm
      · intro hsp
        exact ⟨hic, by rw [hbpo, hsp],
          p, List.mem_of_find?_eq_some hfind, hsp.symm⟩
    have e1 : row.blinkit.isBest = true ↔ "blinkit" = p.platform := by
      rw [← slotOf_blinkit]; exact hiff "blinkit" (Or.inl rfl)
    have e2 : row.zepto.isBest = true ↔ "zepto" = p.platform := by
      rw [← slotOf_zepto]; exact hiff "zepto" (Or.inr (Or.inl rfl))
    have e3 : row.bbnow.isBest = true ↔ "bbnow" = p.platform := by
      rw [← slotOf_bbnow]; exact hiff "bbnow" (Or.inr (Or.inr rfl))
    refine ⟨?_, ?_, ?_⟩
    · cases hb1 : row.blinkit.isBest <;> cases hb2 : row.zepto.isBest <;>
        cases hb3 : row.bbnow.isBest <;> simp [bestFlags, hb1, hb2, hb3]
      · exact absurd ((e2.mp hb2).trans (e3.mp hb3).symm) (by decide)
      · exact absurd ((e1.mp hb1).trans (e3.mp hb3).symm) (by decide)
      · exact absurd ((e1.mp hb1).trans (e2.mp hb2).symm) (by decide)
      · exact absurd ((e1.mp hb1).trans (e2.mp hb2).symm) (by decide)
    · intro hfalse
      rw [hcomp, hic] at hfalse
      exact absurd hfalse (by decide)
    · intro _
      exact ⟨g, hg, heq.symm, p, hfind, hiff⟩
  · have hflag : ∀ s, (s = "blinkit" ∨ s = "zepto" ∨ s = "bbnow") →
        (slotOf row s).isBest = false := by
      intro s hs
      cases hb : (slotOf row s).isBest
      · rfl
      · exact absurd ((hisBest s hs).mp hb).1 hic
    have f1 := hflag "blinkit" (Or.inl rfl)
    have f2 := hflag "zepto" (Or.inr (Or.inl rfl))
    have f3 := hflag "bbnow" (Or.inr (Or.inr rfl))
    rw [slotOf_blinkit] at f1
    rw [slotOf_zepto] at f2
    rw [slotOf_bbnow] at f3
    refine ⟨?_, ?_, ?_⟩
    · simp [bestFlags, f1, f2, f3]
    · intro _
      simp [bestFlags, f1, f2, f3]
    · intro htrue
      rw [hcomp] at htrue
      exact absurd htrue hic

/-- Witness for C10 at the concrete tied-price input (group 0, two
platforms, equal minimal prices). -/
theorem comparison_table_unique_best_witness :
    ((bestFlags (comparisonRow exPriceTie 0)).count true ≤ 1) ∧
    ((comparisonRow exPriceTie 0).is_comparable = false →
      bestFlags (comparisonRow exPriceTie 0) = [false, false, false]) ∧
    ((comparisonRow exPriceTie 0).is_comparable = true →
      ∃ g ∈ dedupFirst (exPriceTie.map (·.product_group)),
        comparisonRow exPriceTie 0 = comparisonRow exPriceTie g ∧
        ∃ p, ((groupDeals exPriceTie g).find? fun q =>
            decide (q.price_per_100g =
              listMin ((groupDeals exPriceTie g).map (·.price_per_100g)))) =
              some p ∧
          ∀ s, (s = "blinkit" ∨ s = "zepto" ∨ s = "bbnow") →
            ((slotOf (comparisonRow exPriceTie 0) s).isBest = true ↔
              s = p.platform)) :=
  comparison_table_unique_best exPriceTie
    (of_decide_eq_true (by with_unfolding_all rfl))
    (comparisonRow exPriceTie 0)
    (List.mem_map.mpr ⟨0, of_decide_eq_true (by with_unfolding_all rfl), rfl⟩)

/-- Witness for C9 at the concrete two-record input. -/
theorem comparison_table_mode_witness :
    ∃ g ∈ dedupFirst (exModeTie.map (·.product_group)),
      comparisonRow exModeTie 0 = comparisonRow exModeTie g ∧
      isSmallestMode ((groupDeals exModeTie g).map (·.name))
        (comparisonRow exModeTie 0).product_name ∧
      isSmallestMode ((groupDeals exModeTie g).map (·.brand))
        (comparisonRow exModeTie 0).brand :=
  comparison_table_mode exModeTie (comparisonRow exModeTie 0)
    (List.mem_map.mpr ⟨0, of_decide_eq_true (by with_unfolding_all rfl), rfl⟩)

/-! ## C1: table completeness over the pipeline -/

/-- C1 (failing): on a three-record matched input whose group 1 has a single
platform, `identify_best_deals` drops group 1 entirely, and
`create_comparison_table` — called on `deals_df` in `run_analysis.py` — then
builds one row where the claim (and the function's own docstring, "showing
ALL products … including single-platform ones") promises two, with no
`is_comparable = false` row at all. -/
theorem comparison_table_drops_groups :
    (dedupFirst (exPipeline.map (·.product_group))).length = 2 ∧
    (identify_best_deals exPipeline).map (·.product_group) = [0, 0] ∧
    (create_comparison_table (identify_best_deals exPipeline)).length = 1 ∧
    (create_comparison_table (identify_best_deals exPipeline)).map
      (·.is_comparable) = [true] :=
  ⟨by with_unfolding_all rfl, by with_unfolding_all rfl,
   by with_unfolding_all rfl, by with_unfolding_all rfl⟩

/-! ## C6: normalization invariants propagate downstream -/

theorem mem_load_and_preprocess {rows : List RawRow} {r : CleanRow}
    (h : r ∈ load_and_preprocess rows) :
    ∃ raw ∈ rows, ∃ nm p w, raw.name = some nm ∧ raw.price = some p ∧
      raw.weight = some w ∧ 0 < p ∧ 100 ≤ w ∧ r.price = p ∧ r.weight = w := by
  simp only [load_and_preprocess, List.mem_filterMap] at h
  obtain ⟨raw, hraw, heq⟩ := h
  cases hn : raw.name with
  | none => rw [hn] at heq; exact absurd heq (by simp)
  | some nm =>
    cases hp : raw.price with
    | none => rw [hn, hp] at heq; exact absurd heq (by simp)
    | some p =>
      cases hw : raw.weight with
      | none => rw [hn, hp, hw] at heq; exact absurd heq (by simp)
      | some w =>
        rw [hn, hp, hw] at heq
        dsimp only at heq
        by_cases hc : 0 < p ∧ 100 ≤ w
        · rw [if_pos hc] at heq
          have hr := Option.some.inj heq
          refine ⟨raw, hraw, nm, p, w, hn, hp, hw, hc.1, hc.2, ?_, ?_⟩
          · rw [← hr]
          · rw [← hr]
        · rw [if_neg hc] at heq
          exact absurd heq (by simp)

theorem mem_fuzzy_match_products {df : List CleanRow} {m : MatchedRow}
    (h : m ∈ fuzzy_match_products 80 df) :
    ∃ row ∈ df, m.price = row.price ∧ m.weight = row.weight := by
  simp only [fuzzy_match_products, List.mem_map] at h
  obtain ⟨row, hrow, heq⟩ := h
  exact ⟨row, hrow, by rw [← heq], by rw [← heq]⟩

theorem stepSlot_price (s : Slot) (p : DealRow) (mark : Bool) :
    (stepSlot s p mark).price = s.price ∨
      (stepSlot s p mark).price = some p.price := by
  unfold stepSlot
  cases mark <;> cases hp : s.per100 <;> simp [hp] <;> (split <;> simp)

theorem foldl_applyProduct_price (ic : Bool) (bp : Option String) (s : String)
    (hs : s = "blinkit" ∨ s = "zepto" ∨ s = "bbnow") :
    ∀ (l : List DealRow) (row : CompRow) (v : ℚ),
      (slotOf (l.foldl (applyProduct ic bp) row) s).price = some v →
      (slotOf row s).price = some v ∨ ∃ p ∈ l, v = p.price
  | [], _, v, hv => Or.inl hv
  | p :: l, row, v, hv => by
    rw [List.foldl_cons] at hv
    rcases foldl_applyProduct_price ic bp s hs l (applyProduct ic bp row p)
      v hv with h | ⟨q, hq, hv'⟩
    · rw [slotOf_applyProduct ic bp row p s hs] at h
      by_cases hp : p.platform = s
      · rw [if_pos hp] at h
        rcases stepSlot_price (slotOf row s) p
          (ic && bp == some p.platform) with h2 | h2
        · exact Or.inl (h2 ▸ h)
        · rw [h2] at h
          exact Or.inr ⟨p, List.mem_cons_self p l,
            (Option.some.inj h).symm⟩
      · rw [if_neg hp] at h
        exact Or.inl h
    · exact Or.inr ⟨q, List.mem_cons_of_mem p hq, hv'⟩

/-- C6: every record in the Normalizer's output has a positive price, weight
at least 100 grams, and originates in an input row whose name was present;
and the invariant persists in every later stage's output — matched rows,
deal rows, and the table's populated price slots all carry survivors'
values. -/
theorem load_and_preprocess_invariant (rows : List RawRow) :
    (∀ r ∈ load_and_preprocess rows,
      0 < r.price ∧ 100 ≤ r.weight ∧
      ∃ raw ∈ rows, raw.name ≠ none ∧ raw.price = some r.price ∧
        raw.weight = some r.weight) ∧
    (∀ m ∈ fuzzy_match_products 80 (load_and_preprocess rows),
      0 < m.price ∧ 100 ≤ m.weight) ∧
    (∀ d ∈ identify_best_deals
        (fuzzy_match_products 80 (load_and_preprocess rows)),
      0 < d.price ∧ 100 ≤ d.weight) ∧
    (∀ row ∈ create_comparison_table (identify_best_deals
        (fuzzy_match_products 80 (load_and_preprocess rows))),
      ∀ s, (s = "blinkit" ∨ s = "zepto" ∨ s = "bbnow") →
        ∀ v, (slotOf row s).price = some v → 0 < v) := by
  have part1 : ∀ r ∈ load_and_preprocess rows,
      0 < r.price ∧ 100 ≤ r.weight ∧
      ∃ raw ∈ rows, raw.name ≠ none ∧ raw.price = some r.price ∧
        raw.weight = some r.weight := by
    intro r hr
    obtain ⟨raw, hraw, nm, p, w, hn, hp, hw, hp0, hw0, hrp, hrw⟩ :=
      mem_load_and_preprocess hr
    subst hrp hrw
    exact ⟨hp0, hw0, raw, hraw, by rw [hn]; exact Option.noConfusion, hp, hw⟩
  have part2 : ∀ m ∈ fuzzy_match_products 80 (load_and_preprocess rows),
      0 < m.price ∧ 100 ≤ m.weight := by
    intro m hm
    obtain ⟨row, hrow, hmp, hmw⟩ := mem_fuzzy_match_products hm
    obtain ⟨h1, h2, -⟩ := part1 row hrow
    exact ⟨hmp ▸ h1, hmw ▸ h2⟩
  have part3 : ∀ d ∈ identify_best_deals
      (fuzzy_match_products 80 (load_and_preprocess rows)),
      0 < d.price ∧ 100 ≤ d.weight := by
    intro d hd
    obtain ⟨i, q, hq, _, _, _, hdq⟩ := mem_identify_best_deals hd
    have hqdf : q ∈ fuzzy_match_products 80 (load_and_preprocess rows) :=
      (List.mem_filter.mp hq).1
    obtain ⟨h1, h2⟩ := part2 q hqdf
    have hdp : d.price = q.price := by rw [hdq]; rfl
    have hdw : d.weight = q.weight := by rw [hdq]; rfl
    rw [hdp, hdw]
    exact ⟨h1, h2⟩
  refine ⟨part1, part2, part3, ?_⟩
  intro row hrow s hs v hv
  obtain ⟨g, _, heq⟩ := List.mem_map.mp hrow
  rw [← heq, comparisonRow] at hv
  rcases foldl_applyProduct_price _ _ s hs _ _ v hv with h | ⟨p, hp, hv'⟩
  · rcases hs with h' | h' | h' <;> subst h' <;>
      simp [slotOf, Slot.empty] at h
  · have hpdeals : p ∈ identify_best_deals
        (fuzzy_match_products 80 (load_and_preprocess rows)) :=
      (List.mem_filter.mp hp).1
    rw [hv']
    exact (part3 p hpdeals).1

/-- Witness for C6 at a concrete one-row CSV input. -/
theorem load_and_preprocess_invariant_witness :
    0 < exCleanOut.price ∧ 100 ≤ exCleanOut.weight ∧
    ∃ raw ∈ exRawRows, raw.name ≠ none ∧ raw.price = some exCleanOut.price ∧
      raw.weight = some exCleanOut.weight :=
  (load_and_preprocess_invariant exRawRows).1 exCleanOut
    (of_decide_eq_true (by with_unfolding_all rfl))

end LoafLogic
